import Mathlib

/-
Shallow embedding of the quote-normalization core of
src/quote_converter_app.py: the functions `sanitize_for_docx`
(with its helpers `_ASCII_CTRL`, `_drop_nonchars`, `_xml10_filter`),
`_detect_primary_style` and `normalize_quotes_to_us` (with its inner
`smarten_line`).

Strings are modelled as `List Char` (for the normalizer) and as
`List Nat` of Unicode code points (for the sanitizer, whose source
explicitly handles surrogate code points, which Lean `Char` cannot
represent).

Python regex classes are modelled as follows.  `\w` is modelled on the
ASCII plane (letters, digits, underscore); every character that occurs in
the inputs of the claims and counterexamples below is either ASCII or one
of the curly-quote glyphs, which are non-word characters both for Python
and for this model.  `\s` is modelled by the full list of characters
Python's `re` treats as whitespace in text patterns.  `\d` is modelled by
the ASCII digits.  `re.sub` scans the original string left to right with
non-overlapping matches, and lookarounds inspect the original string;
every scanner below follows that semantics, threading the previous
original character where a lookbehind or a `\b` needs it.

The numeric thresholds in `_detect_primary_style` are Python float
comparisons (`singles_open >= doubles_open * 1.5` etc.).  `1.5` is exactly
representable in binary64 and `x >= d * 1.5` on integer counts is exactly
`2*x >= 3*d`.  `1.2` is not exactly representable, but for every count
pair that a real Python string can produce (lengths far below 2^50) the
float comparison `x >= s * 1.2` (resp. `>`) agrees with the exact rational
comparison `5*x >= 6*s` (resp. `>`); the embedding uses the exact rational
comparisons.

The recursive string rewriters that can consume more than one character
per step are defined with an explicit fuel argument (initialised to the
length of the input, which each step strictly dominates); this keeps every
definition structurally recursive and hence computable by `decide`/`rfl`.
-/

/-- Straight single quote (ASCII 39). -/
def sqC : Char := Char.ofNat 39

/-- Straight double quote (ASCII 34). -/
def dq : Char := Char.ofNat 34

/-- Newline. -/
def nl : Char := Char.ofNat 10

/-- Left single curly quote U+2018. -/
def lsq : Char := '‘'

/-- Right single curly quote / apostrophe U+2019. -/
def rsq : Char := '’'

/-- Left double curly quote U+201C. -/
def ldq : Char := '“'

/-- Right double curly quote U+201D. -/
def rdq : Char := '”'

/-- The internal apostrophe marker `APOS` of `normalize_quotes_to_us`. -/
def APOS : List Char := "<<APOS>>".data

/-- The internal marker `OPEN_S`. -/
def OPEN_S : List Char := "<<OPEN_S>>".data

/-- The internal marker `CLOSE_S`. -/
def CLOSE_S : List Char := "<<CLOSE_S>>".data

/-- The internal marker `OPEN_D`. -/
def OPEN_D : List Char := "<<OPEN_D>>".data

/-- The internal marker `CLOSE_D`. -/
def CLOSE_D : List Char := "<<CLOSE_D>>".data

/-- Python `\w` on the ASCII plane: letters, digits, underscore. -/
def isWordChar (c : Char) : Bool := c.isAlphanum || c = '_'

/-- Python `\s` for text patterns. -/
def isSpaceChar (c : Char) : Bool :=
  c = ' ' || c = Char.ofNat 9 || c = nl || c = Char.ofNat 11 ||
  c = Char.ofNat 12 || c = Char.ofNat 13 || c = Char.ofNat 28 ||
  c = Char.ofNat 29 || c = Char.ofNat 30 || c = Char.ofNat 31 ||
  c = Char.ofNat 0x85 || c = Char.ofNat 0xA0 || c = Char.ofNat 0x1680 ||
  (decide (0x2000 ≤ c.toNat) && decide (c.toNat ≤ 0x200A)) ||
  c = Char.ofNat 0x2028 || c = Char.ofNat 0x2029 || c = Char.ofNat 0x202F ||
  c = Char.ofNat 0x205F || c = Char.ofNat 0x3000

/-- Python `\d` on the ASCII plane. -/
def isDigitChar (c : Char) : Bool := c.isDigit

/-- The character class `[\s(\[{<]` that may precede a quote-opening
occurrence in `_detect_primary_style`. -/
def isOpenPre (c : Char) : Bool :=
  isSpaceChar c || c = '(' || c = '[' || c = Char.ofNat 123 || c = '<'

/-- Wordness of an optional previous character (`none` = start of string). -/
def optWord (p : Option Char) : Bool :=
  match p with
  | some c => isWordChar c
  | none => false

/-- Wordness of the first character of a list (`false` at end of string). -/
def headWord (s : List Char) : Bool :=
  match s with
  | d :: _ => isWordChar d
  | [] => false

/-- Whether a list starts with a given character. -/
def headIs (q : Char) (s : List Char) : Bool :=
  match s with
  | c :: _ => c = q
  | [] => false

/-- The substitution `re.sub(r"(?<=\w)[’'](?=\w)", rep, text)` of line 455,
parameterised by the replacement text.  `prev` is the previous character of
the original string (lookarounds inspect the original string). -/
def aposSubWith (rep : List Char) : Option Char → List Char → List Char
  | _, [] => []
  | prev, c :: rest =>
    if (c = rsq || c = sqC) && optWord prev && headWord rest then
      rep ++ aposSubWith rep (some c) rest
    else
      c :: aposSubWith rep (some c) rest

/-- Line 455: word-internal straight or curly single quotes become the
`APOS` marker. -/
def prepass (s : List Char) : List Char := aposSubWith APOS none s

/-- Scanning for `[\s(\[{<]q` matches after position 0: each 2-character
match consumes its preceding class character. -/
def findOpensAux (q : Char) : List Char → Nat
  | [] => 0
  | [_] => 0
  | a :: b :: rest =>
    if isOpenPre a && b = q then 1 + findOpensAux q rest
    else findOpensAux q (b :: rest)

/-- `len(re.findall(r'(^|[\s(\[{<])q', text))`: the `^` alternative can
only fire at position 0. -/
def findOpens (q : Char) (s : List Char) : Nat :=
  match s with
  | [] => 0
  | c :: rest =>
    if c = q then 1 + findOpensAux q rest else findOpensAux q (c :: rest)

/-- `_detect_primary_style` (lines 434-449 of the source; the Python name
has a leading underscore).  The float thresholds are embedded as exact
rational comparisons (see the header comment). -/
def detect_primary_style (s : List Char) : String :=
  if s = [] then "UNKNOWN"
  else
    let so := findOpens lsq s
    let dOp := findOpens ldq s
    let st := s.count lsq + s.count rsq
    let dt := s.count ldq + s.count rdq
    if 2 * so ≥ 3 * dOp ∧ so ≥ 4 then "UK"
    else if 5 * dOp ≥ 6 * so ∧ dOp ≥ 4 then "US"
    else if 5 * dt > 6 * st ∧ dOp ≥ 2 then "US"
    else if 2 * st > 3 * dt ∧ so ≥ 2 then "UK"
    else "UNKNOWN"

/-- Prefix matching of a pattern against a text under a character matcher
`m` (first argument: pattern character; second: text character). -/
def mPref (m : Char → Char → Bool) : List Char → List Char → Bool
  | [], _ => true
  | _ :: _, [] => false
  | a :: p, b :: s => m a b && mPref m p s

/-- Exact character matching. -/
def chEq (a b : Char) : Bool := a == b

/-- Prefix matching of a pattern against a text, up to the length of the
shorter list (used to refute matches that would have to overlap a marker
block). -/
def mPrefPartial (m : Char → Char → Bool) : List Char → List Char → Bool
  | [], _ => true
  | _ :: _, [] => true
  | a :: p, b :: s => m a b && mPrefPartial m p s

/-- ASCII lowercasing, for `re.IGNORECASE` (all pattern letters involved
are ASCII). -/
def lowerAscii (c : Char) : Char :=
  if c.toNat ≥ 65 ∧ c.toNat ≤ 90 then Char.ofNat (c.toNat + 32) else c

/-- Case-insensitive character matching (`re.IGNORECASE`). -/
def ciEq (a b : Char) : Bool := lowerAscii a == lowerAscii b

/-- Fueled Python `str.replace(p, r)`: leftmost-first, non-overlapping,
scanning resumes after the replaced occurrence.  The fuel dominates the
length of the text, and each step consumes at least one character of the
text and exactly one unit of fuel.  (`p = []` never occurs in the source;
the guard keeps the definition fuel-independent.) -/
def pyReplaceF (p r : List Char) : Nat → List Char → List Char
  | 0, s => s
  | _ + 1, [] => []
  | f + 1, c :: rest =>
    if !p.isEmpty && mPref chEq p (c :: rest) then
      r ++ pyReplaceF p r f (List.drop p.length (c :: rest))
    else
      c :: pyReplaceF p r f rest

/-- Python `s.replace(p, r)`. -/
def pyReplace (s p r : List Char) : List Char := pyReplaceF p r s.length s

/-- Fueled scanner for line 463,
`re.sub(r'(?<=\w)<<CLOSE_S>>(?=\w)', APOS, t)`.  `prev` is the previous
character of the scanned string; after a match, scanning resumes after the
marker, whose last character is `>`. -/
def sub463F : Nat → Option Char → List Char → List Char
  | 0, _, s => s
  | _ + 1, _, [] => []
  | f + 1, prev, c :: rest =>
    if optWord prev && mPref chEq CLOSE_S (c :: rest) &&
        headWord (List.drop CLOSE_S.length (c :: rest)) then
      APOS ++ sub463F f (some '>') (List.drop CLOSE_S.length (c :: rest))
    else
      c :: sub463F f (some c) rest

/-- Line 463. -/
def sub463 (s : List Char) : List Char := sub463F s.length none s

/-- Fueled scanner for one pass of line 465,
`re.sub(r'\b<<CLOSE_S>>w\b', APOS + w, t, flags=re.IGNORECASE)`.
The leading `\b` sits before the `<` of the marker (a non-word
character), so it holds exactly when the previous character is a word
character.  The trailing `\b` sits after the last letter of `w` (the
matched character is an ASCII letter in either case), so it holds exactly
when the following character is not a word character.  The replacement
uses the pattern's lowercase `w`, as in the source. -/
def elisionSubF (w : List Char) : Nat → Option Char → List Char → List Char
  | 0, _, s => s
  | _ + 1, _, [] => []
  | f + 1, prev, c :: rest =>
    if optWord prev && mPref ciEq (CLOSE_S ++ w) (c :: rest) &&
        !headWord (List.drop (CLOSE_S ++ w).length (c :: rest)) then
      (APOS ++ w) ++
        elisionSubF w f
          (some (List.getLastD (List.take (CLOSE_S ++ w).length (c :: rest)) c))
          (List.drop (CLOSE_S ++ w).length (c :: rest))
    else
      c :: elisionSubF w f (some c) rest

/-- One `re.sub` pass of line 465 for a single elision word. -/
def elisionSubTop (w : List Char) (s : List Char) : List Char :=
  elisionSubF w s.length none s

/-- The elision word list of line 464. -/
def elisionWords : List (List Char) :=
  ["em".data, "cause".data, "til".data, "tis".data,
   "twas".data, "sup".data, "round".data, "clock".data]

/-- Lines 464-465: one sequential `re.sub` pass per elision word. -/
def elisionPass (s : List Char) : List Char :=
  List.foldl (fun acc w => elisionSubTop w acc) s elisionWords

/-- The lookahead `(?=\d{2}s\b)` of line 466. -/
def la466 (v : List Char) : Bool :=
  match v with
  | a :: b :: c2 :: rest =>
    isDigitChar a && isDigitChar b && c2 = 's' && !headWord rest
  | _ => false

/-- Fueled scanner for line 466,
`re.sub(re.escape(CLOSE_S) + r'(?=\d{2}s\b)', APOS, t)` (the lookahead is
not consumed). -/
def sub466F : Nat → List Char → List Char
  | 0, s => s
  | _ + 1, [] => []
  | f + 1, c :: rest =>
    if mPref chEq CLOSE_S (c :: rest) &&
        la466 (List.drop CLOSE_S.length (c :: rest)) then
      APOS ++ sub466F f (List.drop CLOSE_S.length (c :: rest))
    else
      c :: sub466F f rest

/-- Line 466. -/
def sub466 (s : List Char) : List Char := sub466F s.length s

/-- The character loop of `smarten_line` (lines 470-479), with its
alternation flag `open_d`. -/
def smartenAux : Bool → List Char → List Char
  | _, [] => []
  | openD, c :: rest =>
    if c = dq then (if openD then ldq else rdq) :: smartenAux (!openD) rest
    else if c = sqC then rsq :: smartenAux openD rest
    else c :: smartenAux openD rest

/-- `smarten_line` starts with `open_d = True`. -/
def smarten_line (l : List Char) : List Char := smartenAux true l

/-- Python `text.split("\n")`. -/
def splitNl : List Char → List (List Char)
  | [] => [[]]
  | c :: rest =>
    match splitNl rest with
    | [] => [[c]]
    | l :: ls => if c = nl then [] :: l :: ls else (c :: l) :: ls

/-- Python `"\n".join(...)`. -/
def joinNl : List (List Char) → List Char
  | [] => []
  | [l] => l
  | l :: ls => l ++ nl :: joinNl ls

/-- Lines 459-462: tag the four curly glyphs with their markers. -/
def ukSwapIn (t : List Char) : List Char :=
  pyReplace (pyReplace (pyReplace (pyReplace t [lsq] OPEN_S) [rsq] CLOSE_S)
    [ldq] OPEN_D) [rdq] CLOSE_D

/-- Line 467: swap the markers back to the opposite glyphs. -/
def ukSwapOut (t : List Char) : List Char :=
  pyReplace (pyReplace (pyReplace (pyReplace t OPEN_S [ldq]) CLOSE_S [rdq])
    OPEN_D [lsq]) CLOSE_D [rsq]

/-- Line 481: restore the `APOS` marker to the apostrophe glyph. -/
def restoreA (t : List Char) : List Char := pyReplace t APOS [rsq]

/-- Line 480: split on newlines, smarten each line, rejoin. -/
def smartenBranch (t : List Char) : List Char :=
  joinNl ((splitNl t).map smarten_line)

/-- `normalize_quotes_to_us` (lines 451-481). -/
def normalize_quotes_to_us (s : List Char) : List Char :=
  if s = [] then s
  else
    let t := prepass s
    if detect_primary_style t = "UK" then
      restoreA (ukSwapOut (sub466 (elisionPass (sub463 (ukSwapIn t)))))
    else
      restoreA (smartenBranch t)

/-- The Python call with an absent/`None` argument: `if not text: return
text` returns `None` unchanged. -/
def normalize_py (o : Option (List Char)) : Option (List Char) :=
  match o with
  | none => none
  | some s => some (normalize_quotes_to_us s)

/-- The class `_ASCII_CTRL = [\x00-\x08\x0B\x0C\x0E-\x1F\x7F]` (line 404). -/
def isCtrlXml (c : Nat) : Bool :=
  decide (c ≤ 8 ∨ c = 11 ∨ c = 12 ∨ (14 ≤ c ∧ c ≤ 31) ∨ c = 127)

/-- `_ASCII_CTRL.sub('', s)`. -/
def ctrlSub (s : List Nat) : List Nat := s.filter (fun c => !isCtrlXml c)

/-- The noncharacter test of `_drop_nonchars` (line 410):
`0xFDD0 <= code <= 0xFDEF or (code & 0xFFFE) == 0xFFFE`. -/
def isNonchar (c : Nat) : Bool :=
  decide (0xFDD0 ≤ c ∧ c ≤ 0xFDEF) || ((c &&& 0xFFFE) == 0xFFFE)

/-- The surrogate test of `_drop_nonchars` (line 412). -/
def isSurrogate (c : Nat) : Bool := decide (0xD800 ≤ c ∧ c ≤ 0xDFFF)

/-- `_drop_nonchars` (lines 406-415). -/
def dropNonchars : List Nat → List Nat
  | [] => []
  | c :: rest =>
    if isNonchar c then dropNonchars rest
    else if isSurrogate c then 0xFFFD :: dropNonchars rest
    else c :: dropNonchars rest

/-- The keep-condition of `_xml10_filter` (line 423). -/
def xml10Keep (c : Nat) : Bool :=
  decide (c = 9 ∨ c = 10 ∨ c = 13 ∨ (0x20 ≤ c ∧ c ≤ 0xD7FF) ∨
    (0xE000 ≤ c ∧ c ≤ 0xFFFD) ∨ (0x10000 ≤ c ∧ c ≤ 0x10FFFF))

/-- `_xml10_filter` (lines 417-425); its empty-string early return yields
the same value as the filter. -/
def xml10Filter (s : List Nat) : List Nat := s.filter xml10Keep

/-- `sanitize_for_docx` (lines 427-432). -/
def sanitize_for_docx (s : List Nat) : List Nat :=
  if s = [] then s else xml10Filter (dropNonchars (ctrlSub s))

/-
Specification-side definitions, written from the wording of the claims
(used only on the specification side of refinement statements).
-/

/-- Spec side, claim C2: whether an optional previous character admits a
quote-opening occurrence ("preceded by start-of-string or a
whitespace/bracket character"; the brackets are the opening brackets
`( [ { <` of the source's class). -/
def prevOpens (prev : Option Char) : Bool :=
  match prev with
  | none => true
  | some p => isOpenPre p

/-- Spec side, claim C2: positional count of quote-opening occurrences,
walking the string with the previous character. -/
def specOpensGo (q : Char) : Option Char → List Char → Nat
  | _, [] => 0
  | prev, c :: rest =>
    (if c = q && prevOpens prev then 1 else 0) + specOpensGo q (some c) rest

/-- Spec side, claim C2: an "open" of `q` is an occurrence of `q` preceded
by start-of-string or a whitespace/bracket character. -/
def specOpens (q : Char) (s : List Char) : Nat := specOpensGo q none s

/-- Spec side, claim C2: the style vote as worded in the claim, with the
US rules merged by `∨` in the stated order. -/
def claimDetect (s : List Char) : String :=
  let so := specOpens lsq s
  let dOp := specOpens ldq s
  let st := s.count lsq + s.count rsq
  let dt := s.count ldq + s.count rdq
  if 2 * so ≥ 3 * dOp ∧ so ≥ 4 then "UK"
  else if (5 * dOp ≥ 6 * so ∧ dOp ≥ 4) ∨ (5 * dt > 6 * st ∧ dOp ≥ 2) then "US"
  else if 2 * st > 3 * dt ∧ so ≥ 2 then "UK"
  else "UNKNOWN"

/-- Spec side, claim C6: one step of the claimed single left-to-right
scan (straight double quotes alternate between opening and closing curls
starting with opening; straight single quotes become the closing single
curl; everything else is passed through). -/
def claimScanStep (acc : List Char × Bool) (c : Char) : List Char × Bool :=
  if c = dq then (acc.1 ++ [if acc.2 then ldq else rdq], !acc.2)
  else if c = sqC then (acc.1 ++ [rsq], acc.2)
  else (acc.1 ++ [c], acc.2)

/-- Spec side, claim C6: the claimed single left-to-right scan of a
string. -/
def claimSingleScan (s : List Char) : List Char :=
  (s.foldl claimScanStep ([], true)).1

/-- Spec side, claim C9: a private-use, inert placeholder character that
no stage of the normalizer inspects (it is not a quote, not a word
character, not whitespace, and occurs in no marker). -/
def Echar : Char := Char.ofNat 0xE000

/-- Spec side, claim C9: mask every word-internal single quote (the exact
occurrences the pre-pass of line 455 rewrites) by the placeholder. -/
def maskE (s : List Char) : List Char := aposSubWith [Echar] none s

/-- Spec side, claim C9: expand each placeholder to the `APOS` marker
text. -/
def expandE : List Char → List Char
  | [] => []
  | c :: rest => (if c = Echar then APOS else [c]) ++ expandE rest

/-- Spec side, claim C9: render each placeholder as the apostrophe glyph. -/
def substE (s : List Char) : List Char :=
  s.map (fun c => if c = Echar then rsq else c)

/-- Substring containment (used for the marker-leak claims): does `s`
contain `p` as a contiguous substring? -/
def containsTok (p : List Char) : List Char → Bool
  | [] => p.isEmpty
  | c :: rest => mPref chEq p (c :: rest) || containsTok p rest

/-- Count of a character in a list (wrapper over `List.count`). -/
def countCh (c : Char) (s : List Char) : Nat := s.count c

/-- Spec side, claim C10: removed ASCII control characters (all ASCII
controls other than tab, line feed, carriage return). -/
def claimCtrl (c : Nat) : Bool :=
  decide ((c < 0x20 ∧ c ≠ 9 ∧ c ≠ 10 ∧ c ≠ 13) ∨ c = 0x7F)

/-- Spec side, claim C10: Unicode noncharacters (U+FDD0..U+FDEF and code
points whose low 16 bits are FFFE or FFFF). -/
def claimNonchar (c : Nat) : Bool :=
  decide ((0xFDD0 ≤ c ∧ c ≤ 0xFDEF) ∨ c % 0x10000 = 0xFFFE ∨ c % 0x10000 = 0xFFFF)

/-- Spec side, claim C10: surrogate code points. -/
def claimSurrogate (c : Nat) : Bool := decide (0xD800 ≤ c ∧ c ≤ 0xDFFF)

/-- Spec side, claim C10: the per-character sanitation rule as worded in
the claim. -/
def xmlSanRule (c : Nat) : Option Nat :=
  if claimCtrl c then none
  else if claimNonchar c then none
  else if claimSurrogate c then some 0xFFFD
  else some c

/-
Theorems.  First, general lemmas about the fueled rewriters.
-/

theorem isEmpty_false_pos {p : List Char} (h : p.isEmpty = false) :
    0 < p.length := by
  cases p with
  | nil => simp at h
  | cons a l => simp

theorem mPref_chEq_iff (p : List Char) :
    ∀ s : List Char, mPref chEq p s = true ↔ ∃ w, s = p ++ w := by
  induction p with
  | nil => intro s; simp [mPref]
  | cons a p ih =>
    intro s
    cases s with
    | nil =>
      simp [mPref]
    | cons b t =>
      simp only [mPref, Bool.and_eq_true, chEq, beq_iff_eq, ih, List.cons_append,
        List.cons.injEq]
      constructor
      · rintro ⟨hab, w, hw⟩
        exact ⟨w, hab.symm, hw⟩
      · rintro ⟨w, hba, hw⟩
        exact ⟨hba.symm, w, hw⟩

theorem pyReplaceF_irrel (p r : List Char) :
    ∀ (f g : Nat) (s : List Char), s.length ≤ f → s.length ≤ g →
      pyReplaceF p r f s = pyReplaceF p r g s := by
  intro f
  induction f with
  | zero =>
    intro g s hf _
    have hs : s = [] := List.eq_nil_of_length_eq_zero (Nat.le_zero.mp hf)
    subst hs
    cases g <;> simp [pyReplaceF]
  | succ f ih =>
    intro g s hf hg
    cases s with
    | nil => cases g <;> simp [pyReplaceF]
    | cons c rest =>
      cases g with
      | zero => simp at hg
      | succ g =>
        simp only [pyReplaceF]
        by_cases h : (!p.isEmpty && mPref chEq p (c :: rest)) = true
        · rw [if_pos h, if_pos h]
          have hp : 0 < p.length :=
            isEmpty_false_pos (by
              rcases Bool.and_eq_true .. |>.mp h with ⟨h1, _⟩
              simpa using h1)
          have hlen : (List.drop p.length (c :: rest)).length ≤ rest.length := by
            rw [List.length_drop]
            simp only [List.length_cons]
            omega
          have h1 : (List.drop p.length (c :: rest)).length ≤ f := by
            simp only [List.length_cons] at hf
            omega
          have h2 : (List.drop p.length (c :: rest)).length ≤ g := by
            simp only [List.length_cons] at hg
            omega
          rw [ih (g := g) (List.drop p.length (c :: rest)) h1 h2]
        · rw [if_neg h, if_neg h]
          have h1 : rest.length ≤ f := by
            simp only [List.length_cons] at hf
            omega
          have h2 : rest.length ≤ g := by
            simp only [List.length_cons] at hg
            omega
          rw [ih (g := g) rest h1 h2]

theorem pyReplace_nil (p r : List Char) : pyReplace [] p r = [] := rfl

theorem pyReplace_cons (c : Char) (rest p r : List Char) :
    pyReplace (c :: rest) p r =
      if !p.isEmpty && mPref chEq p (c :: rest) then
        r ++ pyReplace (List.drop p.length (c :: rest)) p r
      else c :: pyReplace rest p r := by
  show pyReplaceF p r ((c :: rest).length) (c :: rest) = _
  simp only [List.length_cons, pyReplaceF]
  by_cases h : (!p.isEmpty && mPref chEq p (c :: rest)) = true
  · rw [if_pos h, if_pos h]
    have hp : 0 < p.length :=
      isEmpty_false_pos (by
        rcases Bool.and_eq_true .. |>.mp h with ⟨h1, _⟩
        simpa using h1)
    have h1 : (List.drop p.length (c :: rest)).length ≤ rest.length := by
      rw [List.length_drop]
      simp only [List.length_cons]
      omega
    rw [pyReplaceF_irrel p r rest.length (List.drop p.length (c :: rest)).length _ h1 le_rfl]
    rfl
  · rw [if_neg h, if_neg h]
    rfl

theorem containsTok_append_false (p : List Char) (hp : p ≠ []) :
    ∀ (r t : List Char), (∀ a ∈ r, a ∉ p) → containsTok p t = false →
      containsTok p (r ++ t) = false := by
  intro r
  induction r with
  | nil => intro t _ ht; simpa using ht
  | cons a r ih =>
    intro t hdisj ht
    have hmem : a ∉ p := hdisj a (List.mem_cons_self a r)
    simp only [List.cons_append, containsTok, Bool.or_eq_false_iff]
    refine ⟨?_, ih t (fun b hb => hdisj b (List.mem_cons_of_mem a hb)) ht⟩
    cases p with
    | nil => exact absurd rfl hp
    | cons p0 ptl =>
      have hne : p0 ≠ a := fun he => hmem (he ▸ List.mem_cons_self p0 ptl)
      simp [mPref, chEq, hne]

theorem mPref_replaceF_false (p r : List Char) (hr : r ≠ []) :
    ∀ (f : Nat) (s q : List Char), s.length ≤ f → q ≠ [] →
      (∀ a ∈ r, a ∉ q) → mPref chEq q s = false →
      mPref chEq q (pyReplaceF p r f s) = false := by
  intro f
  induction f with
  | zero =>
    intro s q hf _ _ hqs
    have hs : s = [] := List.eq_nil_of_length_eq_zero (Nat.le_zero.mp hf)
    subst hs
    simpa [pyReplaceF] using hqs
  | succ f ih =>
    intro s q hf hq hrq hqs
    cases s with
    | nil => simpa [pyReplaceF] using hqs
    | cons c rest =>
      simp only [pyReplaceF]
      by_cases h : (!p.isEmpty && mPref chEq p (c :: rest)) = true
      · rw [if_pos h]
        cases q with
        | nil => exact absurd rfl hq
        | cons q0 qtl =>
          cases r with
          | nil => exact absurd rfl hr
          | cons r0 rtl =>
            have hne : q0 ≠ r0 := fun he =>
              hrq r0 (List.mem_cons_self r0 rtl) (he ▸ List.mem_cons_self q0 qtl)
            simp [mPref, chEq, hne]
      · rw [if_neg h]
        cases q with
        | nil => exact absurd rfl hq
        | cons q0 qtl =>
          simp only [mPref, Bool.and_eq_false_iff] at hqs ⊢
          rcases hqs with hqs | hqs
          · exact Or.inl hqs
          · cases qtl with
            | nil => simp [mPref] at hqs
            | cons x xs =>
              refine Or.inr (ih rest (x :: xs) ?_ (by simp) ?_ hqs)
              · simp only [List.length_cons] at hf
                omega
              · intro a ha hmem
                exact hrq a ha (List.mem_cons_of_mem q0 hmem)

theorem containsTok_replaceF (p r : List Char) (hp : p ≠ []) (hr : r ≠ [])
    (hdisj : ∀ a ∈ r, a ∉ p) :
    ∀ (f : Nat) (s : List Char), s.length ≤ f →
      containsTok p (pyReplaceF p r f s) = false := by
  have hemp : p.isEmpty = false := by cases p with
    | nil => exact absurd rfl hp
    | cons a l => rfl
  intro f
  induction f with
  | zero =>
    intro s hf
    have hs : s = [] := List.eq_nil_of_length_eq_zero (Nat.le_zero.mp hf)
    subst hs
    simpa [pyReplaceF, containsTok] using hemp
  | succ f ih =>
    intro s hf
    cases s with
    | nil => simpa [pyReplaceF, containsTok] using hemp
    | cons c rest =>
      simp only [pyReplaceF]
      by_cases h : (!p.isEmpty && mPref chEq p (c :: rest)) = true
      · rw [if_pos h]
        have hp1 : 0 < p.length := isEmpty_false_pos hemp
        refine containsTok_append_false p hp r _ hdisj (ih _ ?_)
        rw [List.length_drop]
        simp only [List.length_cons] at hf ⊢
        omega
      · rw [if_neg h]
        have hrest : rest.length ≤ f := by
          simp only [List.length_cons] at hf
          omega
        simp only [containsTok, Bool.or_eq_false_iff]
        refine ⟨?_, ih rest hrest⟩
        have hm : mPref chEq p (c :: rest) = false := by
          rcases Bool.and_eq_false_iff.mp (Bool.eq_false_iff.mpr h) with h1 | h1
          · rw [hemp] at h1; simp at h1
          · exact h1
        cases p with
        | nil => exact absurd rfl hp
        | cons p0 ptl =>
          simp only [mPref, Bool.and_eq_false_iff] at hm ⊢
          rcases hm with hm | hm
          · exact Or.inl hm
          · cases ptl with
            | nil => simp [mPref] at hm
            | cons x xs =>
              refine Or.inr (mPref_replaceF_false (p0 :: x :: xs) r hr f rest (x :: xs) hrest
                (by simp) ?_ hm)
              intro a ha hmem
              exact hdisj a ha (List.mem_cons_of_mem p0 hmem)

theorem containsTok_pyReplace (p r s : List Char) (hp : p ≠ []) (hr : r ≠ [])
    (hdisj : ∀ a ∈ r, a ∉ p) : containsTok p (pyReplace s p r) = false :=
  containsTok_replaceF p r hp hr hdisj s.length s le_rfl

theorem restore_no_apos (t : List Char) : containsTok APOS (restoreA t) = false :=
  containsTok_pyReplace APOS [rsq] t (by decide) (by decide) (by decide)

/-
Character-count preservation through the rewriters, for characters that
occur in no pattern and no replacement.
-/

theorem countCh_take_zero (m : Char → Char → Bool) (x : Char) :
    ∀ (p s : List Char), (∀ a ∈ p, m a x = false) → mPref m p s = true →
      countCh x (List.take p.length s) = 0 := by
  intro p
  induction p with
  | nil => intro s _ _; simp [countCh]
  | cons a p ih =>
    intro s hp hm
    cases s with
    | nil => simp [mPref] at hm
    | cons b t =>
      simp only [mPref, Bool.and_eq_true] at hm
      have hbx : b ≠ x := by
        intro he
        subst he
        rw [hp a (List.mem_cons_self a p)] at hm
        exact Bool.false_ne_true hm.1
      simp only [List.length_cons, List.take_succ_cons, countCh, List.count_cons]
      have := ih t (fun c hc => hp c (List.mem_cons_of_mem a hc)) hm.2
      simp only [countCh] at this
      simp [this, hbx, Ne.symm hbx]

theorem countCh_append (x : Char) (r t : List Char) :
    countCh x (r ++ t) = countCh x r + countCh x t := by
  simp [countCh, List.count_append]

theorem countCh_zero_of_notMem {x : Char} {l : List Char} (h : x ∉ l) :
    countCh x l = 0 := by
  simp [countCh, List.count_eq_zero.mpr h]

theorem countCh_pyReplaceF (p r : List Char) (x : Char)
    (hxp : x ∉ p) (hxr : x ∉ r) :
    ∀ (f : Nat) (s : List Char), s.length ≤ f →
      countCh x (pyReplaceF p r f s) = countCh x s := by
  intro f
  induction f with
  | zero =>
    intro s hf
    have hs : s = [] := List.eq_nil_of_length_eq_zero (Nat.le_zero.mp hf)
    subst hs
    rfl
  | succ f ih =>
    intro s hf
    cases s with
    | nil => rfl
    | cons c rest =>
      simp only [pyReplaceF]
      by_cases h : (!p.isEmpty && mPref chEq p (c :: rest)) = true
      · rw [if_pos h]
        rcases Bool.and_eq_true .. |>.mp h with ⟨h1, h2⟩
        have hp : 0 < p.length := isEmpty_false_pos (by simpa using h1)
        obtain ⟨w, hw⟩ := (mPref_chEq_iff p (c :: rest)).mp h2
        have hwl : w.length ≤ f := by
          have : (c :: rest).length = p.length + w.length := by
            rw [hw, List.length_append]
          simp only [List.length_cons] at hf this
          omega
        rw [hw, List.drop_left, countCh_append, countCh_append,
          countCh_zero_of_notMem hxp, countCh_zero_of_notMem hxr, ih w hwl]
      · rw [if_neg h]
        have hrest : rest.length ≤ f := by
          simp only [List.length_cons] at hf
          omega
        simp only [countCh, List.count_cons] at ih ⊢
        rw [ih rest hrest]

theorem countCh_pyReplace (s p r : List Char) (x : Char)
    (hxp : x ∉ p) (hxr : x ∉ r) :
    countCh x (pyReplace s p r) = countCh x s :=
  countCh_pyReplaceF p r x hxp hxr s.length s le_rfl

theorem countCh_sub463F (x : Char) (hx1 : x ∉ CLOSE_S) (hx2 : x ∉ APOS) :
    ∀ (f : Nat) (prev : Option Char) (s : List Char), s.length ≤ f →
      countCh x (sub463F f prev s) = countCh x s := by
  intro f
  induction f with
  | zero =>
    intro prev s hf
    have hs : s = [] := List.eq_nil_of_length_eq_zero (Nat.le_zero.mp hf)
    subst hs
    rfl
  | succ f ih =>
    intro prev s hf
    cases s with
    | nil => rfl
    | cons c rest =>
      simp only [sub463F]
      by_cases h : (optWord prev && mPref chEq CLOSE_S (c :: rest) &&
          headWord (List.drop CLOSE_S.length (c :: rest))) = true
      · rw [if_pos h]
        have h2 : mPref chEq CLOSE_S (c :: rest) = true :=
          (Bool.and_eq_true .. |>.mp (Bool.and_eq_true .. |>.mp h).1).2
        obtain ⟨w, hw⟩ := (mPref_chEq_iff CLOSE_S (c :: rest)).mp h2
        have hwl : w.length ≤ f := by
          have : (c :: rest).length = CLOSE_S.length + w.length := by
            rw [hw, List.length_append]
          simp only [List.length_cons] at hf this
          have hcl : 0 < CLOSE_S.length := by decide
          omega
        rw [hw, List.drop_left, countCh_append, countCh_append,
          countCh_zero_of_notMem hx2, countCh_zero_of_notMem hx1, ih _ w hwl]
      · rw [if_neg h]
        have hrest : rest.length ≤ f := by
          simp only [List.length_cons] at hf
          omega
        simp only [countCh, List.count_cons] at ih ⊢
        rw [ih (some c) rest hrest]

theorem countCh_elisionSubF (w : List Char) (x : Char)
    (hx2 : x ∉ APOS) (hx3 : x ∉ w)
    (hci : ∀ a ∈ CLOSE_S ++ w, ciEq a x = false) :
    ∀ (f : Nat) (prev : Option Char) (s : List Char), s.length ≤ f →
      countCh x (elisionSubF w f prev s) = countCh x s := by
  intro f
  induction f with
  | zero =>
    intro prev s hf
    have hs : s = [] := List.eq_nil_of_length_eq_zero (Nat.le_zero.mp hf)
    subst hs
    rfl
  | succ f ih =>
    intro prev s hf
    cases s with
    | nil => rfl
    | cons c rest =>
      simp only [elisionSubF]
      by_cases h : (optWord prev && mPref ciEq (CLOSE_S ++ w) (c :: rest) &&
          !headWord (List.drop (CLOSE_S ++ w).length (c :: rest))) = true
      · rw [if_pos h]
        have h2 : mPref ciEq (CLOSE_S ++ w) (c :: rest) = true :=
          (Bool.and_eq_true .. |>.mp (Bool.and_eq_true .. |>.mp h).1).2
        have htz : countCh x (List.take (CLOSE_S ++ w).length (c :: rest)) = 0 :=
          countCh_take_zero ciEq x (CLOSE_S ++ w) (c :: rest) hci h2
        have hsplit : countCh x (c :: rest) =
            countCh x (List.take (CLOSE_S ++ w).length (c :: rest)) +
            countCh x (List.drop (CLOSE_S ++ w).length (c :: rest)) := by
          conv_lhs => rw [← List.take_append_drop (CLOSE_S ++ w).length (c :: rest)]
          exact countCh_append x _ _
        have hpl : 0 < (CLOSE_S ++ w).length := by
          rw [List.length_append]
          have : 0 < CLOSE_S.length := by decide
          omega
        have hwl : (List.drop (CLOSE_S ++ w).length (c :: rest)).length ≤ f := by
          rw [List.length_drop]
          simp only [List.length_cons] at hf ⊢
          omega
        rw [countCh_append, countCh_append, countCh_zero_of_notMem hx2,
          countCh_zero_of_notMem hx3, ih _ _ hwl, hsplit, htz]
      · rw [if_neg h]
        have hrest : rest.length ≤ f := by
          simp only [List.length_cons] at hf
          omega
        simp only [countCh, List.count_cons] at ih ⊢
        rw [ih (some c) rest hrest]

theorem countCh_sub466F (x : Char) (hx1 : x ∉ CLOSE_S) (hx2 : x ∉ APOS) :
    ∀ (f : Nat) (s : List Char), s.length ≤ f →
      countCh x (sub466F f s) = countCh x s := by
  intro f
  induction f with
  | zero =>
    intro s hf
    have hs : s = [] := List.eq_nil_of_length_eq_zero (Nat.le_zero.mp hf)
    subst hs
    rfl
  | succ f ih =>
    intro s hf
    cases s with
    | nil => rfl
    | cons c rest =>
      simp only [sub466F]
      by_cases h : (mPref chEq CLOSE_S (c :: rest) &&
          la466 (List.drop CLOSE_S.length (c :: rest))) = true
      · rw [if_pos h]
        have h2 : mPref chEq CLOSE_S (c :: rest) = true :=
          (Bool.and_eq_true .. |>.mp h).1
        obtain ⟨w, hw⟩ := (mPref_chEq_iff CLOSE_S (c :: rest)).mp h2
        have hwl : w.length ≤ f := by
          have : (c :: rest).length = CLOSE_S.length + w.length := by
            rw [hw, List.length_append]
          simp only [List.length_cons] at hf this
          have hcl : 0 < CLOSE_S.length := by decide
          omega
        rw [hw, List.drop_left, countCh_append, countCh_append,
          countCh_zero_of_notMem hx2, countCh_zero_of_notMem hx1, ih w hwl]
      · rw [if_neg h]
        have hrest : rest.length ≤ f := by
          simp only [List.length_cons] at hf
          omega
        simp only [countCh, List.count_cons] at ih ⊢
        rw [ih rest hrest]

theorem countCh_elisionFold (x : Char) (hx2 : x ∉ APOS) :
    ∀ (ws : List (List Char)) (t : List Char),
      (∀ w ∈ ws, x ∉ w ∧ ∀ a ∈ CLOSE_S ++ w, ciEq a x = false) →
      countCh x (List.foldl (fun acc w => elisionSubTop w acc) t ws) = countCh x t := by
  intro ws
  induction ws with
  | nil => intro t _; rfl
  | cons w ws ih =>
    intro t hw
    simp only [List.foldl_cons]
    rw [ih _ (fun v hv => hw v (List.mem_cons_of_mem w hv))]
    exact countCh_elisionSubF w x hx2 (hw w (List.mem_cons_self w ws)).1
      (hw w (List.mem_cons_self w ws)).2 t.length none t le_rfl

theorem countCh_uk_branch (x : Char)
    (hO : x ∉ OPEN_S) (hC : x ∉ CLOSE_S) (hOD : x ∉ OPEN_D) (hCD : x ∉ CLOSE_D)
    (hA : x ∉ APOS)
    (hg1 : x ≠ lsq) (hg2 : x ≠ rsq) (hg3 : x ≠ ldq) (hg4 : x ≠ rdq)
    (hW : ∀ w ∈ elisionWords, x ∉ w ∧ ∀ a ∈ CLOSE_S ++ w, ciEq a x = false)
    (t : List Char) :
    countCh x (restoreA (ukSwapOut (sub466 (elisionPass (sub463 (ukSwapIn t)))))) =
      countCh x t := by
  have e1 : ∀ u, countCh x (restoreA u) = countCh x u := fun u =>
    countCh_pyReplace u APOS [rsq] x hA (by simp [hg2])
  have e2 : ∀ u, countCh x (ukSwapOut u) = countCh x u := by
    intro u
    unfold ukSwapOut
    rw [countCh_pyReplace _ CLOSE_D [rsq] x hCD (by simp [hg2]),
      countCh_pyReplace _ OPEN_D [lsq] x hOD (by simp [hg1]),
      countCh_pyReplace _ CLOSE_S [rdq] x hC (by simp [hg4]),
      countCh_pyReplace _ OPEN_S [ldq] x hO (by simp [hg3])]
  have e3 : ∀ u, countCh x (sub466 u) = countCh x u := fun u =>
    countCh_sub466F x hC hA u.length u le_rfl
  have e4 : ∀ u, countCh x (elisionPass u) = countCh x u := fun u =>
    countCh_elisionFold x hA elisionWords u hW
  have e5 : ∀ u, countCh x (sub463 u) = countCh x u := fun u =>
    countCh_sub463F x hC hA u.length none u le_rfl
  have e6 : ∀ u, countCh x (ukSwapIn u) = countCh x u := by
    intro u
    unfold ukSwapIn
    rw [countCh_pyReplace _ [rdq] CLOSE_D x (by simp [hg4]) hCD,
      countCh_pyReplace _ [ldq] OPEN_D x (by simp [hg3]) hOD,
      countCh_pyReplace _ [rsq] CLOSE_S x (by simp [hg2]) hC,
      countCh_pyReplace _ [lsq] OPEN_S x (by simp [hg1]) hO]
  rw [e1, e2, e3, e4, e5, e6]

/-
The regex count of quote-opening occurrences equals the positional count:
each 2-character match consumes its preceding class character, but a
consumed quote glyph is never a class character, so consumption never
hides a later candidate.
-/

theorem findOpensAux_spec (q : Char) (hq : isOpenPre q = false) :
    ∀ (n : Nat) (s : List Char), s.length ≤ n → ∀ (prev : Option Char),
      (headIs q s && prevOpens prev) = false →
      findOpensAux q s = specOpensGo q prev s := by
  intro n
  induction n with
  | zero =>
    intro s hs prev _
    have h0 : s = [] := List.eq_nil_of_length_eq_zero (Nat.le_zero.mp hs)
    subst h0
    rfl
  | succ n ih =>
    intro s hs prev hp
    cases s with
    | nil => rfl
    | cons a t =>
      cases t with
      | nil =>
        have hcond : (decide (a = q) && prevOpens prev) = false := by
          simpa [headIs] using hp
        simp only [findOpensAux, specOpensGo]
        simp [hcond]
      | cons b rest =>
        have hcond : (decide (a = q) && prevOpens prev) = false := by
          simpa [headIs] using hp
        have hlen1 : rest.length ≤ n := by
          simp only [List.length_cons] at hs
          omega
        have hlen2 : (b :: rest).length ≤ n := by
          simp only [List.length_cons] at hs ⊢
          omega
        by_cases hab : (isOpenPre a && decide (b = q)) = true
        · rcases Bool.and_eq_true .. |>.mp hab with ⟨ha, hb⟩
          have hbq : b = q := of_decide_eq_true hb
          simp only [findOpensAux, specOpensGo]
          rw [if_pos hab]
          have htail : findOpensAux q rest = specOpensGo q (some b) rest := by
            refine ih rest hlen1 (some b) ?_
            have : prevOpens (some b) = false := by
              simp [prevOpens, hbq, hq]
            simp [this]
          have hmid : (decide (b = q) && prevOpens (some a)) = true := by
            simp [hb, prevOpens, ha]
          simp [hcond, hmid, htail]
        · simp only [findOpensAux, specOpensGo]
          rw [if_neg hab]
          have htail : findOpensAux q (b :: rest) = specOpensGo q (some a) (b :: rest) := by
            refine ih (b :: rest) hlen2 (some a) ?_
            have : (headIs q (b :: rest) && prevOpens (some a)) =
                (decide (b = q) && isOpenPre a) := by
              simp [headIs, prevOpens]
            rw [this, Bool.and_comm]
            exact Bool.eq_false_iff.mpr hab
          simp [hcond, htail, specOpensGo]

theorem findOpens_eq_specOpens (q : Char) (hq : isOpenPre q = false)
    (s : List Char) : findOpens q s = specOpens q s := by
  cases s with
  | nil => rfl
  | cons c rest =>
    simp only [findOpens, specOpens, specOpensGo]
    by_cases hc : c = q
    · rw [if_pos hc]
      have htail : findOpensAux q rest = specOpensGo q (some c) rest := by
        refine findOpensAux_spec q hq rest.length rest le_rfl (some c) ?_
        have : prevOpens (some c) = false := by
          simp [prevOpens, hc, hq]
        simp [this]
      have hmid : (decide (c = q) && prevOpens none) = true := by
        simp [hc, prevOpens]
      simp [hmid, htail]
    · rw [if_neg hc]
      have htail : findOpensAux q (c :: rest) = specOpensGo q none (c :: rest) := by
        refine findOpensAux_spec q hq (c :: rest).length (c :: rest) le_rfl none ?_
        simp [headIs, hc]
      rw [htail]
      simp only [specOpensGo]

/-
Claim theorems.
-/

/-- Claim C1, counterexample: on the input
`She said, ‘He said, “hello”.’` the normalizer does NOT return the claimed
US-nested string `She said, “He said, ‘hello’.”`. -/
theorem C1_counterexample :
    normalize_quotes_to_us "She said, ‘He said, “hello”.’".data ≠
      "She said, “He said, ‘hello’.”".data := by decide

/-- Claim C1, amended: on the input `She said, ‘He said, “hello”.’` the
normalizer returns the input unchanged, because the style vote classifies
it UNKNOWN (one single-open is below the threshold of four, and the
singles total 2 does not exceed 1.5 times the doubles total 2), so the
smartening pass runs and leaves the already-curly quotes untouched; the
claimed inversion applies only to UK-classified inputs. -/
theorem C1_amended :
    normalize_quotes_to_us "She said, ‘He said, “hello”.’".data =
      "She said, ‘He said, “hello”.’".data := by decide

/-- Claim C4, code-bug evaluation: the input `‘a ‘b ‘c ‘d ’em` is
classified UK, yet the closing single quote of `’em` is NOT reclassified
as an apostrophe: it is swapped to `”`, producing `“a “b “c “d ”em`.  The
elision regex of line 465 places `\b` before the `<` of the
`<<CLOSE_S>>` marker, so it requires a word character immediately before
the marker — and every such occurrence that is also followed by a word
character has already been consumed by lines 455/463, so the elision rule
can never fire on a quote-derived marker. -/
theorem C4_code_eval :
    detect_primary_style (prepass "‘a ‘b ‘c ‘d ’em".data) = "UK" ∧
    normalize_quotes_to_us "‘a ‘b ‘c ‘d ’em".data =
      "“a “b “c “d ”em".data := by decide

/-- Claim C5: the normalizer is total — for every string it terminates
and returns a string (the embedding is a computable total function: every
primitive it uses, `re.sub` scans, `str.replace`, `split`/`join`, is
total, and no operation in the pipeline can raise), and the Python
truthiness guard maps an absent (`None`) input to `None` rather than
raising. -/
theorem C5_totality :
    (∀ s : List Char, ∃ t : List Char,
      normalize_quotes_to_us s = t ∧ normalize_py (some s) = some t) ∧
    normalize_py none = none :=
  ⟨fun s => ⟨normalize_quotes_to_us s, rfl, rfl⟩, rfl⟩

/-- Claim C8: the normalizer returns its input unchanged, without
raising, on the empty string and on `None`; and
`normalize("no quotes here")` is returned unchanged. -/
theorem C8_noop_cases :
    normalize_py none = none ∧
    normalize_quotes_to_us [] = [] ∧
    normalize_py (some []) = some [] ∧
    normalize_quotes_to_us "no quotes here".data = "no quotes here".data := by
  decide

/-- Claim C3, counterexample: the adversarial input consisting of the
literal text `<<OPEN_S>>` is classified UNKNOWN, passes through the
smartening branch unchanged, and the returned string still contains the
placeholder token `<<OPEN_S>>` — the final line of the function only
unresolves `<<APOS>>`. -/
theorem C3_counterexample :
    containsTok OPEN_S "<<OPEN_S>>".data = true ∧
    normalize_quotes_to_us "<<OPEN_S>>".data = "<<OPEN_S>>".data ∧
    containsTok OPEN_S (normalize_quotes_to_us "<<OPEN_S>>".data) = true := by
  decide

/-- Claim C6, counterexample: on the input `"a\nb"` (classified UNKNOWN)
the code smartens each newline-separated line independently, restarting
the alternation at opening on each line, and returns `“a\nb“`; the
claimed single whole-string scan would return `“a\nb”`. -/
theorem C6_counterexample :
    detect_primary_style (prepass ([dq] ++ "a".data ++ [nl] ++ "b".data ++ [dq])) =
      "UNKNOWN" ∧
    normalize_quotes_to_us ([dq] ++ "a".data ++ [nl] ++ "b".data ++ [dq]) =
      "“a".data ++ [nl] ++ "b“".data ∧
    claimSingleScan ([dq] ++ "a".data ++ [nl] ++ "b".data ++ [dq]) =
      "“a".data ++ [nl] ++ "b”".data ∧
    normalize_quotes_to_us ([dq] ++ "a".data ++ [nl] ++ "b".data ++ [dq]) ≠
      claimSingleScan ([dq] ++ "a".data ++ [nl] ++ "b".data ++ [dq]) := by
  decide

/-- Claim C7, counterexample: the input `‘a ‘b ‘c ‘d '` is classified UK,
yet the straight single quote survives into the returned string
`“a “b “c “d '` — the UK swap path contains no coercion of straight
quotes to curly defaults. -/
theorem C7_counterexample :
    detect_primary_style (prepass ("‘a ‘b ‘c ‘d ".data ++ [sqC])) = "UK" ∧
    normalize_quotes_to_us ("‘a ‘b ‘c ‘d ".data ++ [sqC]) =
      "“a “b “c “d ".data ++ [sqC] ∧
    sqC ∈ normalize_quotes_to_us ("‘a ‘b ‘c ‘d ".data ++ [sqC]) := by
  decide

/-- Claim C3, amended: the returned string never contains the placeholder
token `<<APOS>>` (the final `replace` unresolves every occurrence and its
replacement `’` cannot recreate one); the other four swap tokens are not
introduced by the normalizer, but an input containing their literal text
verbatim can survive on the non-UK path. -/
theorem C3_amended_no_apos_marker (s : List Char) :
    containsTok APOS (normalize_quotes_to_us s) = false := by
  simp only [normalize_quotes_to_us]
  split_ifs with h1 h2
  · subst h1; decide
  · exact restore_no_apos _
  · exact restore_no_apos _

/-- Claim C7, amended: the UK swap path performs NO normalization of
straight quotes to curly defaults.  Apart from word-internal quotes
(which the pre-pass of line 455 rewrites into apostrophes before the
style vote), every straight single and double quote of a UK-classified
input survives into the returned string: the number of `'` and of `"`
characters in the output equals their number after the pre-pass. -/
theorem C7_amended_no_straight_coercion (s : List Char)
    (h : detect_primary_style (prepass s) = "UK") :
    countCh sqC (normalize_quotes_to_us s) = countCh sqC (prepass s) ∧
    countCh dq (normalize_quotes_to_us s) = countCh dq (prepass s) := by
  have hs : s ≠ [] := by
    intro he
    subst he
    exact (by decide : detect_primary_style (prepass []) ≠ "UK") h
  simp only [normalize_quotes_to_us, if_neg hs]
  rw [if_pos h]
  constructor
  · exact countCh_uk_branch sqC (by decide) (by decide) (by decide) (by decide)
      (by decide) (by decide) (by decide) (by decide) (by decide) (by decide) _
  · exact countCh_uk_branch dq (by decide) (by decide) (by decide) (by decide)
      (by decide) (by decide) (by decide) (by decide) (by decide) (by decide) _

/-- Witness for the amended claim C7, at the UK-classified input
`‘a ‘b ‘c ‘d '`. -/
theorem C7_amended_witness :
    detect_primary_style (prepass ("‘a ‘b ‘c ‘d ".data ++ [sqC])) = "UK" ∧
    (countCh sqC (normalize_quotes_to_us ("‘a ‘b ‘c ‘d ".data ++ [sqC])) =
        countCh sqC (prepass ("‘a ‘b ‘c ‘d ".data ++ [sqC])) ∧
      countCh dq (normalize_quotes_to_us ("‘a ‘b ‘c ‘d ".data ++ [sqC])) =
        countCh dq (prepass ("‘a ‘b ‘c ‘d ".data ++ [sqC]))) :=
  ⟨by decide, C7_amended_no_straight_coercion ("‘a ‘b ‘c ‘d ".data ++ [sqC]) (by decide)⟩

/-- Claim C2: for every string, `_detect_primary_style` computes exactly
the style vote described in the claim — opens are occurrences of `‘`
(resp. `“`) preceded by start-of-string or a whitespace/bracket
character, totals count both glyphs of a type, and the four threshold
rules are applied in the stated order. -/
theorem C2_style_vote (s : List Char) :
    detect_primary_style s = claimDetect s := by
  by_cases hs : s = []
  · subst hs; decide
  · unfold detect_primary_style claimDetect
    rw [if_neg hs, findOpens_eq_specOpens lsq (by decide) s,
      findOpens_eq_specOpens ldq (by decide) s]
    dsimp only
    split_ifs <;> first | rfl | tauto

theorem claimScan_append (l : List Char) :
    ∀ (acc : List Char) (b : Bool),
      (List.foldl claimScanStep (acc, b) l).1 = acc ++ smartenAux b l := by
  induction l with
  | nil => intro acc b; simp [smartenAux]
  | cons c rest ih =>
    intro acc b
    simp only [List.foldl_cons]
    by_cases hdq : c = dq
    · subst hdq
      simp only [claimScanStep, if_pos rfl]
      rw [ih]
      simp [smartenAux]
    · by_cases hsq : c = sqC
      · subst hsq
        have hne : sqC ≠ dq := by decide
        simp only [claimScanStep, if_neg hne, if_pos rfl]
        rw [ih]
        simp [smartenAux, hne]
      · simp only [claimScanStep, if_neg hdq, if_neg hsq]
        rw [ih]
        simp [smartenAux, hdq, hsq]

theorem claimSingleScan_eq (l : List Char) : claimSingleScan l = smarten_line l := by
  unfold claimSingleScan smarten_line
  simpa using claimScan_append l [] true

/-- Claim C6, amended: for every nonempty input not classified UK, the
output is obtained by splitting the pre-passed string at newlines,
applying the claimed left-to-right scan to each line independently (the
double-quote alternation restarting at opening on every line), rejoining
with newlines, and restoring the apostrophe marker. -/
theorem C6_amended_per_line_scan (s : List Char) (h0 : s ≠ [])
    (h : detect_primary_style (prepass s) ≠ "UK") :
    normalize_quotes_to_us s =
      restoreA (joinNl ((splitNl (prepass s)).map claimSingleScan)) := by
  simp only [normalize_quotes_to_us, if_neg h0]
  rw [if_neg h]
  unfold smartenBranch
  have hfun : claimSingleScan = smarten_line := funext claimSingleScan_eq
  rw [hfun]

/-- Witness for the amended claim C6, at the UNKNOWN-classified input
`"x`. -/
theorem C6_amended_witness :
    (([dq] ++ "x".data) ≠ []) ∧
    detect_primary_style (prepass ([dq] ++ "x".data)) ≠ "UK" ∧
    normalize_quotes_to_us ([dq] ++ "x".data) =
      restoreA (joinNl ((splitNl (prepass ([dq] ++ "x".data))).map claimSingleScan)) :=
  ⟨by decide, by decide, C6_amended_per_line_scan _ (by decide) (by decide)⟩

/-
Claim C10: the sanitizer.
-/

theorem land_fffe_iff (c : Nat) :
    (c &&& 0xFFFE = 0xFFFE) ↔ (c % 0x10000 = 0xFFFE ∨ c % 0x10000 = 0xFFFF) := by
  have h1 : c &&& 0xFFFE = (c % 65536) &&& 0xFFFE := by
    calc c &&& 0xFFFE = c &&& (65535 &&& 0xFFFE) := by
          rw [show (65535 &&& 0xFFFE : Nat) = 0xFFFE by decide]
      _ = (c &&& 65535) &&& 0xFFFE := (Nat.land_assoc c 65535 0xFFFE).symm
      _ = (c % 65536) &&& 0xFFFE := by rw [Nat.and_pow_two_sub_one_eq_mod c 16]
  constructor
  · intro h
    rw [h1] at h
    have hb : (0xFFFE : Nat) ≤ c % 65536 := h ▸ Nat.and_le_left
    have hlt : c % 65536 < 65536 := Nat.mod_lt _ (by norm_num)
    omega
  · intro h
    rw [h1]
    rcases h with h | h <;> rw [show c % 65536 = c % 0x10000 from rfl, h] <;> decide

theorem isNonchar_eq (c : Nat) : isNonchar c = claimNonchar c := by
  unfold isNonchar claimNonchar
  rw [Bool.eq_iff_iff]
  simp only [Bool.or_eq_true, decide_eq_true_eq, beq_iff_eq]
  rw [land_fffe_iff]

theorem isCtrl_eq (c : Nat) : isCtrlXml c = claimCtrl c := by
  unfold isCtrlXml claimCtrl
  rw [Bool.eq_iff_iff]
  simp only [decide_eq_true_eq]
  omega

theorem sanitize_eq_comp (s : List Nat) :
    sanitize_for_docx s = xml10Filter (dropNonchars (ctrlSub s)) := by
  cases s with
  | nil => rfl
  | cons c rest => rfl

theorem sanComp_filterMap : ∀ (s : List Nat), (∀ c ∈ s, c < 0x110000) →
    xml10Filter (dropNonchars (ctrlSub s)) = s.filterMap xmlSanRule := by
  intro s
  induction s with
  | nil => intro _; rfl
  | cons c rest ih =>
    intro hval
    have hc : c < 0x110000 := hval c (List.mem_cons_self c rest)
    have hrest : ∀ a ∈ rest, a < 0x110000 := fun a ha =>
      hval a (List.mem_cons_of_mem c ha)
    have hrec := ih hrest
    show xml10Filter (dropNonchars (List.filter (fun a => !isCtrlXml a) (c :: rest))) = _
    rw [List.filter_cons]
    by_cases h1 : isCtrlXml c = true
    · rw [if_neg (by simp [h1])]
      rw [List.filterMap_cons]
      have hcc : claimCtrl c = true := (isCtrl_eq c) ▸ h1
      rw [show xmlSanRule c = none by simp [xmlSanRule, hcc]]
      exact hrec
    · have h1f : isCtrlXml c = false := Bool.eq_false_iff.mpr h1
      have hcc : claimCtrl c = false := (isCtrl_eq c) ▸ h1f
      rw [if_pos (by simp [h1f])]
      simp only [dropNonchars]
      by_cases h2 : isNonchar c = true
      · rw [if_pos h2, List.filterMap_cons]
        have hc2 : claimNonchar c = true := (isNonchar_eq c) ▸ h2
        rw [show xmlSanRule c = none by simp [xmlSanRule, hcc, hc2]]
        exact hrec
      · have h2f : isNonchar c = false := Bool.eq_false_iff.mpr h2
        have hc2 : claimNonchar c = false := (isNonchar_eq c) ▸ h2f
        rw [if_neg h2]
        by_cases h3 : isSurrogate c = true
        · rw [if_pos h3, List.filterMap_cons]
          have hc3 : claimSurrogate c = true := h3
          rw [show xmlSanRule c = some 0xFFFD by simp [xmlSanRule, hcc, hc2, hc3]]
          show List.filter xml10Keep (0xFFFD :: _) = _
          rw [List.filter_cons, if_pos (by decide)]
          exact congrArg (fun l => (0xFFFD : Nat) :: l) hrec
        · have h3f : isSurrogate c = false := Bool.eq_false_iff.mpr h3
          have hc3 : claimSurrogate c = false := h3f
          rw [if_neg h3, List.filterMap_cons]
          rw [show xmlSanRule c = some c by simp [xmlSanRule, hcc, hc2, hc3]]
          have h1p : ¬(c ≤ 8 ∨ c = 11 ∨ c = 12 ∨ (14 ≤ c ∧ c ≤ 31) ∨ c = 127) := by
            simpa [isCtrlXml, decide_eq_true_eq] using h1
          have h2p : ¬((0xFDD0 ≤ c ∧ c ≤ 0xFDEF) ∨ c % 0x10000 = 0xFFFE ∨
              c % 0x10000 = 0xFFFF) := by
            have h4 : claimNonchar c = false := hc2
            simpa [claimNonchar, decide_eq_true_eq] using
              Bool.eq_false_iff.mp h4
          have h3p : ¬(0xD800 ≤ c ∧ c ≤ 0xDFFF) := by
            simpa [isSurrogate, decide_eq_true_eq] using
              Bool.eq_false_iff.mp h3f
          have hkeep : xml10Keep c = true := by
            simp only [xml10Keep, decide_eq_true_eq]
            omega
          show List.filter xml10Keep (c :: _) = _
          rw [List.filter_cons, if_pos (by simp [hkeep])]
          exact congrArg (fun l => c :: l) hrec

/-- Claim C10: for every string of code points below 0x110000 (every
Python string), `sanitize_for_docx` keeps exactly the characters the
claim describes, in order: ASCII controls other than tab/LF/CR are
removed, Unicode noncharacters are removed, surrogates become U+FFFD,
everything else is preserved; and every returned code point satisfies
the XML 1.0 validity condition. -/
theorem C10_sanitize (s : List Nat) (h : ∀ c ∈ s, c < 0x110000) :
    sanitize_for_docx s = s.filterMap xmlSanRule ∧
    ∀ c ∈ sanitize_for_docx s, xml10Keep c = true := by
  constructor
  · rw [sanitize_eq_comp]
    exact sanComp_filterMap s h
  · intro c hc
    rw [sanitize_eq_comp] at hc
    exact List.of_mem_filter hc

/-- Witness for claim C10 at a concrete list of code points exercising
every branch of the rule. -/
theorem C10_witness :
    (∀ c ∈ ([72, 1, 0xD800, 0xFDD0, 9, 0xFFFE, 0x1FFFF, 65] : List Nat), c < 0x110000) ∧
    (sanitize_for_docx [72, 1, 0xD800, 0xFDD0, 9, 0xFFFE, 0x1FFFF, 65] =
        ([72, 1, 0xD800, 0xFDD0, 9, 0xFFFE, 0x1FFFF, 65] : List Nat).filterMap xmlSanRule ∧
      ∀ c ∈ sanitize_for_docx [72, 1, 0xD800, 0xFDD0, 9, 0xFFFE, 0x1FFFF, 65],
        xml10Keep c = true) :=
  ⟨by decide, C10_sanitize _ (by decide)⟩

/-
Claim C9 machinery: the normalizer treats word-internal quotes exactly as
an inert placeholder that is finally rendered as the apostrophe glyph.
`expandE` relates the masked pipeline to the real one: it maps the
placeholder to the `APOS` marker text.  Every stage of the normalizer is
shown to commute with `expandE`.
-/

theorem apos_cons : APOS = '<' :: '<' :: 'A' :: 'P' :: 'O' :: 'S' :: '>' :: '>' :: [] := by
  decide

theorem expandE_cons_e (u : List Char) : expandE (Echar :: u) = APOS ++ expandE u := by
  simp [expandE]

theorem expandE_cons_ne {c : Char} (hc : c ≠ Echar) (u : List Char) :
    expandE (c :: u) = c :: expandE u := by
  simp [expandE, hc]

theorem expandE_append : ∀ (a b : List Char), expandE (a ++ b) = expandE a ++ expandE b := by
  intro a b
  induction a with
  | nil => rfl
  | cons c rest ih =>
    simp only [List.cons_append, expandE, List.append_eq, ih, List.append_assoc]

theorem expandE_id : ∀ {l : List Char}, Echar ∉ l → expandE l = l := by
  intro l
  induction l with
  | nil => intro _; rfl
  | cons c rest ih =>
    intro h
    have hc : c ≠ Echar := fun he => h (he ▸ List.mem_cons_self c rest)
    rw [expandE_cons_ne hc, ih (fun hm => h (List.mem_cons_of_mem c hm))]

theorem expandE_nil_iff (u : List Char) : expandE u = [] ↔ u = [] := by
  cases u with
  | nil => simp [expandE]
  | cons c rest =>
    constructor
    · intro h
      by_cases hc : c = Echar
      · subst hc
        rw [expandE_cons_e, apos_cons] at h
        simp at h
      · rw [expandE_cons_ne hc] at h
        simp at h
    · intro h
      simp at h

theorem headWord_expandE (u : List Char) : headWord (expandE u) = headWord u := by
  cases u with
  | nil => rfl
  | cons c rest =>
    by_cases hc : c = Echar
    · subst hc
      rw [expandE_cons_e, apos_cons]
      simp only [List.cons_append, headWord]
      decide
    · rw [expandE_cons_ne hc]
      rfl

theorem count_expandE (q : Char) (hq : q ∉ APOS) (hqE : q ≠ Echar) :
    ∀ u : List Char, (expandE u).count q = u.count q := by
  intro u
  induction u with
  | nil => rfl
  | cons c rest ih =>
    by_cases hc : c = Echar
    · subst hc
      rw [expandE_cons_e, List.count_append, List.count_eq_zero.mpr hq, ih]
      simp [List.count_cons, hqE]
    · rw [expandE_cons_ne hc]
      simp [List.count_cons, ih]

theorem splitNl_ne_nil (t : List Char) : splitNl t ≠ [] := by
  cases t with
  | nil => simp [splitNl]
  | cons c rest =>
    simp only [splitNl]
    cases splitNl rest with
    | nil => simp
    | cons l ls =>
      by_cases hc : c = nl <;> simp [hc]

theorem joinNl_splitNl : ∀ t : List Char, joinNl (splitNl t) = t := by
  intro t
  induction t with
  | nil => rfl
  | cons c rest ih =>
    simp only [splitNl]
    cases hs : splitNl rest with
    | nil => exact absurd hs (splitNl_ne_nil rest)
    | cons l ls =>
      rw [hs] at ih
      show joinNl (if c = nl then [] :: l :: ls else (c :: l) :: ls) = c :: rest
      by_cases hc : c = nl
      · rw [if_pos hc]
        show joinNl ([] :: l :: ls) = c :: rest
        simp only [joinNl]
        rw [ih, hc]
        rfl
      · rw [if_neg hc]
        cases ls with
        | nil =>
          show joinNl [c :: l] = c :: rest
          simp only [joinNl] at ih ⊢
          rw [ih]
        | cons m ms =>
          show joinNl ((c :: l) :: m :: ms) = c :: rest
          simp only [joinNl] at ih ⊢
          rw [← ih]
          rfl

theorem mPrefPartial_of_append (m : Char → Char → Bool) :
    ∀ (p B X : List Char), mPref m p (B ++ X) = true → mPrefPartial m p B = true := by
  intro p
  induction p with
  | nil => intro B X _; rfl
  | cons a p ih =>
    intro B X h
    cases B with
    | nil => rfl
    | cons b B2 =>
      simp only [List.cons_append, mPref, Bool.and_eq_true] at h
      simp only [mPrefPartial, Bool.and_eq_true]
      exact ⟨h.1, ih B2 X h.2⟩

theorem mPref_false_of_partial (m : Char → Char → Bool) (p v X : List Char)
    (hv : mPrefPartial m p v = false) : mPref m p (v ++ X) = false := by
  cases h : mPref m p (v ++ X) with
  | false => rfl
  | true => exact absurd (mPrefPartial_of_append m p v X h) (by simp [hv])

theorem mPref_unexpand (m : Char → Char → Bool) :
    ∀ (u : List Char) (p : List Char),
      (∀ j, j < p.length → mPrefPartial m (List.drop j p) APOS = false) →
      mPref m p (expandE u) = true → mPref m p u = true := by
  intro u
  induction u with
  | nil =>
    intro p _ h
    cases p with
    | nil => rfl
    | cons a p2 => simp [expandE, mPref] at h
  | cons c u2 ih =>
    intro p hp h
    by_cases hc : c = Echar
    · subst hc
      rw [expandE_cons_e] at h
      cases p with
      | nil => rfl
      | cons a p2 =>
        have hpart := mPrefPartial_of_append m (a :: p2) APOS (expandE u2) h
        have h0 := hp 0 (by simp)
        rw [List.drop_zero] at h0
        exact absurd hpart (by simp [h0])
    · rw [expandE_cons_ne hc] at h
      cases p with
      | nil => rfl
      | cons a p2 =>
        simp only [mPref, Bool.and_eq_true] at h ⊢
        refine ⟨h.1, ih p2 ?_ h.2⟩
        intro j hj
        have := hp (j + 1) (by simpa using Nat.succ_lt_succ hj)
        simpa using this

theorem mPref_unexpand_cons (m : Char → Char → Bool) (p : List Char)
    (H : ∀ j, 0 < j → j < p.length → mPrefPartial m (List.drop j p) APOS = false)
    (c : Char) (hc : c ≠ Echar) (u2 : List Char)
    (h : mPref m p (c :: expandE u2) = true) : mPref m p (c :: u2) = true := by
  cases p with
  | nil => rfl
  | cons a p2 =>
    simp only [mPref, Bool.and_eq_true] at h ⊢
    refine ⟨h.1, mPref_unexpand m u2 p2 ?_ h.2⟩
    intro j hj
    have := H (j + 1) (by omega) (by simpa using Nat.succ_lt_succ hj)
    simpa using this

theorem mPref_expand (m : Char → Char → Bool) :
    ∀ (p v : List Char), (∀ a ∈ p, m a Echar = false) →
      mPref m p v = true → mPref m p (expandE v) = true := by
  intro p
  induction p with
  | nil => intro v _ _; rfl
  | cons a p2 ih =>
    intro v hm h
    cases v with
    | nil => simp [mPref] at h
    | cons b v2 =>
      simp only [mPref, Bool.and_eq_true] at h
      have hb : b ≠ Echar := by
        intro he
        subst he
        rw [hm a (List.mem_cons_self a p2)] at h
        exact Bool.false_ne_true h.1
      rw [expandE_cons_ne hb]
      simp only [mPref, Bool.and_eq_true]
      exact ⟨h.1, ih v2 (fun x hx => hm x (List.mem_cons_of_mem a hx)) h.2⟩

theorem drop_take_expandE (m : Char → Char → Bool) :
    ∀ (p v : List Char), (∀ a ∈ p, m a Echar = false) →
      mPref m p v = true →
      List.drop p.length (expandE v) = expandE (List.drop p.length v) ∧
      List.take p.length (expandE v) = List.take p.length v := by
  intro p
  induction p with
  | nil => intro v _ _; exact ⟨rfl, rfl⟩
  | cons a p2 ih =>
    intro v hm h
    cases v with
    | nil => simp [mPref] at h
    | cons b v2 =>
      simp only [mPref, Bool.and_eq_true] at h
      have hb : b ≠ Echar := by
        intro he
        subst he
        rw [hm a (List.mem_cons_self a p2)] at h
        exact Bool.false_ne_true h.1
      rw [expandE_cons_ne hb]
      have := ih v2 (fun x hx => hm x (List.mem_cons_of_mem a hx)) h.2
      simp only [List.length_cons, List.drop_succ_cons, List.take_succ_cons]
      exact ⟨this.1, by rw [this.2]⟩

theorem sub463F_irrel :
    ∀ (f g : Nat) (prev : Option Char) (s : List Char), s.length ≤ f → s.length ≤ g →
      sub463F f prev s = sub463F g prev s := by
  intro f
  induction f with
  | zero =>
    intro g prev s hf _
    have hs : s = [] := List.eq_nil_of_length_eq_zero (Nat.le_zero.mp hf)
    subst hs
    cases g <;> simp [sub463F]
  | succ f ih =>
    intro g prev s hf hg
    cases s with
    | nil => cases g <;> simp [sub463F]
    | cons c rest =>
      cases g with
      | zero => simp at hg
      | succ g =>
        simp only [sub463F]
        simp only [List.length_cons] at hf hg
        by_cases h : (optWord prev && mPref chEq CLOSE_S (c :: rest) &&
            headWord (List.drop CLOSE_S.length (c :: rest))) = true
        · rw [if_pos h, if_pos h]
          congr 1
          apply ih
          · rw [List.length_drop]
            simp only [List.length_cons]
            have : CLOSE_S.length = 11 := by decide
            omega
          · rw [List.length_drop]
            simp only [List.length_cons]
            have : CLOSE_S.length = 11 := by decide
            omega
        · rw [if_neg h, if_neg h]
          congr 1
          apply ih <;> omega

theorem elisionSubF_irrel (w : List Char) :
    ∀ (f g : Nat) (prev : Option Char) (s : List Char), s.length ≤ f → s.length ≤ g →
      elisionSubF w f prev s = elisionSubF w g prev s := by
  intro f
  induction f with
  | zero =>
    intro g prev s hf _
    have hs : s = [] := List.eq_nil_of_length_eq_zero (Nat.le_zero.mp hf)
    subst hs
    cases g <;> simp [elisionSubF]
  | succ f ih =>
    intro g prev s hf hg
    cases s with
    | nil => cases g <;> simp [elisionSubF]
    | cons c rest =>
      cases g with
      | zero => simp at hg
      | succ g =>
        simp only [elisionSubF]
        simp only [List.length_cons] at hf hg
        by_cases h : (optWord prev && mPref ciEq (CLOSE_S ++ w) (c :: rest) &&
            !headWord (List.drop (CLOSE_S ++ w).length (c :: rest))) = true
        · rw [if_pos h, if_pos h]
          congr 1
          have hlen : 0 < (CLOSE_S ++ w).length := by
            rw [List.length_append]
            have : CLOSE_S.length = 11 := by decide
            omega
          apply ih <;>
            (rw [List.length_drop]; simp only [List.length_cons]; omega)
        · rw [if_neg h, if_neg h]
          congr 1
          apply ih <;> omega

theorem sub466F_irrel :
    ∀ (f g : Nat) (s : List Char), s.length ≤ f → s.length ≤ g →
      sub466F f s = sub466F g s := by
  intro f
  induction f with
  | zero =>
    intro g s hf _
    have hs : s = [] := List.eq_nil_of_length_eq_zero (Nat.le_zero.mp hf)
    subst hs
    cases g <;> simp [sub466F]
  | succ f ih =>
    intro g s hf hg
    cases s with
    | nil => cases g <;> simp [sub466F]
    | cons c rest =>
      cases g with
      | zero => simp at hg
      | succ g =>
        simp only [sub466F]
        simp only [List.length_cons] at hf hg
        by_cases h : (mPref chEq CLOSE_S (c :: rest) &&
            la466 (List.drop CLOSE_S.length (c :: rest))) = true
        · rw [if_pos h, if_pos h]
          congr 1
          have hC : CLOSE_S.length = 11 := by decide
          apply ih
          · rw [List.length_drop]
            simp only [List.length_cons]
            omega
          · rw [List.length_drop]
            simp only [List.length_cons]
            omega
        · rw [if_neg h, if_neg h]
          congr 1
          apply ih <;> omega

theorem sub463F_copy :
    ∀ (B : List Char) (lastc : Char), B.getLast? = some lastc →
      ∀ (g : Nat) (pe : Option Char) (w : List Char),
        (∀ j, j < B.length → ∀ X, mPref chEq CLOSE_S (List.drop j B ++ X) = false) →
        sub463F (g + B.length) pe (B ++ w) = B ++ sub463F g (some lastc) w := by
  intro B
  induction B with
  | nil => intro lastc h; simp at h
  | cons b B2 ih =>
    intro lastc hlast g pe w H
    have hm : mPref chEq CLOSE_S ((b :: B2) ++ w) = false := by
      have := H 0 (by simp) w
      simpa using this
    have hstep : g + (b :: B2).length = (g + B2.length) + 1 := by
      simp only [List.length_cons]
      omega
    rw [hstep]
    simp only [List.cons_append, sub463F]
    rw [if_neg (by simp only [List.cons_append] at hm; simp [hm])]
    cases B2 with
    | nil =>
      have hb : lastc = b := by
        simp [List.getLast?] at hlast
        exact hlast.symm
      rw [hb]
      rfl
    | cons b2 B3 =>
      have hlast2 : (b2 :: B3).getLast? = some lastc := by
        rwa [List.getLast?_cons_cons] at hlast
      have H2 : ∀ j, j < (b2 :: B3).length → ∀ X,
          mPref chEq CLOSE_S (List.drop j (b2 :: B3) ++ X) = false := by
        intro j hj X
        have := H (j + 1) (by simp only [List.length_cons] at hj ⊢; omega) X
        simpa using this
      have h3 := ih lastc hlast2 g (some b) w H2
      simp only [List.length_cons] at h3 ⊢
      simp only [List.append_eq]
      rw [h3]

theorem elisionSubF_copy (w : List Char) :
    ∀ (B : List Char) (lastc : Char), B.getLast? = some lastc →
      ∀ (g : Nat) (pe : Option Char) (ww : List Char),
        (∀ j, j < B.length → ∀ X, mPref ciEq (CLOSE_S ++ w) (List.drop j B ++ X) = false) →
        elisionSubF w (g + B.length) pe (B ++ ww) = B ++ elisionSubF w g (some lastc) ww := by
  intro B
  induction B with
  | nil => intro lastc h; simp at h
  | cons b B2 ih =>
    intro lastc hlast g pe ww H
    have hm : mPref ciEq (CLOSE_S ++ w) ((b :: B2) ++ ww) = false := by
      have := H 0 (by simp) ww
      simpa using this
    have hstep : g + (b :: B2).length = (g + B2.length) + 1 := by
      simp only [List.length_cons]
      omega
    rw [hstep]
    simp only [List.cons_append, elisionSubF]
    rw [if_neg (by simp only [List.cons_append] at hm; simp [hm])]
    cases B2 with
    | nil =>
      have hb : lastc = b := by
        simp [List.getLast?] at hlast
        exact hlast.symm
      rw [hb]
      rfl
    | cons b2 B3 =>
      have hlast2 : (b2 :: B3).getLast? = some lastc := by
        rwa [List.getLast?_cons_cons] at hlast
      have H2 : ∀ j, j < (b2 :: B3).length → ∀ X,
          mPref ciEq (CLOSE_S ++ w) (List.drop j (b2 :: B3) ++ X) = false := by
        intro j hj X
        have := H (j + 1) (by simp only [List.length_cons] at hj ⊢; omega) X
        simpa using this
      have h3 := ih lastc hlast2 g (some b) ww H2
      simp only [List.length_cons] at h3 ⊢
      simp only [List.append_eq]
      rw [h3]

theorem sub466F_copy :
    ∀ (B : List Char) (g : Nat) (ww : List Char),
      (∀ j, j < B.length → ∀ X, mPref chEq CLOSE_S (List.drop j B ++ X) = false) →
      sub466F (g + B.length) (B ++ ww) = B ++ sub466F g ww := by
  intro B
  induction B with
  | nil => intro g ww _; simp
  | cons b B2 ih =>
    intro g ww H
    have hm : mPref chEq CLOSE_S ((b :: B2) ++ ww) = false := by
      have := H 0 (by simp) ww
      simpa using this
    have hstep : g + (b :: B2).length = (g + B2.length) + 1 := by
      simp only [List.length_cons]
      omega
    rw [hstep]
    simp only [List.cons_append, sub466F]
    rw [if_neg (by simp only [List.cons_append] at hm; simp [hm])]
    have H2 : ∀ j, j < B2.length → ∀ X,
        mPref chEq CLOSE_S (List.drop j B2 ++ X) = false := by
      intro j hj X
      have := H (j + 1) (by simp only [List.length_cons]; omega) X
      simpa using this
    have h3 := ih g ww H2
    simp only [List.append_eq]
    rw [h3]

theorem pyReplaceF_copy (p r : List Char) :
    ∀ (B : List Char) (g : Nat) (ww : List Char),
      (∀ j, j < B.length → ∀ X, mPref chEq p (List.drop j B ++ X) = false) →
      pyReplaceF p r (g + B.length) (B ++ ww) = B ++ pyReplaceF p r g ww := by
  intro B
  induction B with
  | nil => intro g ww _; simp
  | cons b B2 ih =>
    intro g ww H
    have hm : mPref chEq p ((b :: B2) ++ ww) = false := by
      have := H 0 (by simp) ww
      simpa using this
    have hstep : g + (b :: B2).length = (g + B2.length) + 1 := by
      simp only [List.length_cons]
      omega
    rw [hstep]
    simp only [List.cons_append, pyReplaceF]
    rw [if_neg (by simp only [List.cons_append] at hm; simp [hm])]
    have H2 : ∀ j, j < B2.length → ∀ X,
        mPref chEq p (List.drop j B2 ++ X) = false := by
      intro j hj X
      have := H (j + 1) (by simp only [List.length_cons]; omega) X
      simpa using this
    have h3 := ih g ww H2
    simp only [List.append_eq]
    rw [h3]

theorem smartenAux_copy :
    ∀ (B : List Char), (∀ c ∈ B, c ≠ dq ∧ c ≠ sqC) →
      ∀ (st : Bool) (ww : List Char), smartenAux st (B ++ ww) = B ++ smartenAux st ww := by
  intro B
  induction B with
  | nil => intro _ st ww; rfl
  | cons b B2 ih =>
    intro hB st ww
    have hb := hB b (List.mem_cons_self b B2)
    simp only [List.cons_append, smartenAux]
    rw [if_neg hb.1, if_neg hb.2]
    simp only [List.append_eq]
    rw [ih (fun c hc => hB c (List.mem_cons_of_mem b hc)) st ww]

theorem specOpensGo_copy (q : Char) :
    ∀ (B : List Char) (lastc : Char), B.getLast? = some lastc →
      (∀ c ∈ B, c ≠ q) →
      ∀ (pe : Option Char) (ww : List Char),
        specOpensGo q pe (B ++ ww) = specOpensGo q (some lastc) ww := by
  intro B
  induction B with
  | nil => intro lastc h; simp at h
  | cons b B2 ih =>
    intro lastc hlast hB pe ww
    have hb : b ≠ q := hB b (List.mem_cons_self b B2)
    simp only [List.cons_append, specOpensGo]
    rw [if_neg (by simp [hb])]
    cases B2 with
    | nil =>
      have hbl : lastc = b := by
        simp [List.getLast?] at hlast
        exact hlast.symm
      rw [hbl]
      simp only [List.append_eq, List.nil_append, Nat.zero_add]
    | cons b2 B3 =>
      have hlast2 : (b2 :: B3).getLast? = some lastc := by
        rwa [List.getLast?_cons_cons] at hlast
      have h3 := ih lastc hlast2 (fun c hc => hB c (List.mem_cons_of_mem b hc))
        (some b) ww
      simp only [List.append_eq]
      rw [h3]
      omega

theorem close_s_not_in_apos :
    ∀ j, j < APOS.length → ∀ X, mPref chEq CLOSE_S (List.drop j APOS ++ X) = false := by
  intro j hj X
  apply mPref_false_of_partial
  rw [show APOS.length = 8 from by decide] at hj
  interval_cases j <;> decide

theorem close_s_drop_apos :
    ∀ j, 0 < j → j < CLOSE_S.length → mPrefPartial chEq (List.drop j CLOSE_S) APOS = false := by
  intro j hj1 hj2
  rw [show CLOSE_S.length = 11 from by decide] at hj2
  interval_cases j <;> decide

theorem sub463F_expand :
    ∀ (n : Nat) (u : List Char) (f g : Nat) (p pe : Option Char),
      u.length ≤ n → u.length ≤ f → (expandE u).length ≤ g →
      optWord p = optWord pe →
      sub463F g pe (expandE u) = expandE (sub463F f p u) := by
  intro n
  induction n with
  | zero =>
    intro u f g p pe hn _ _ _
    have hu : u = [] := List.eq_nil_of_length_eq_zero (Nat.le_zero.mp hn)
    subst hu
    cases g <;> cases f <;> simp [sub463F, expandE]
  | succ n ih =>
    intro u f g p pe hn hf hg hpe
    cases u with
    | nil => cases g <;> cases f <;> simp [sub463F, expandE]
    | cons c u2 =>
      cases f with
      | zero => simp at hf
      | succ f =>
        simp only [List.length_cons] at hn hf
        by_cases hc : c = Echar
        · subst hc
          rw [expandE_cons_e]
          have hlen : (expandE (Echar :: u2)).length = 8 + (expandE u2).length := by
            rw [expandE_cons_e, List.length_append,
              show APOS.length = 8 from by decide]
          have hg8 : 8 + (expandE u2).length ≤ g := by
            rw [← hlen]
            exact hg
          have hgsplit : g = (g - 8) + APOS.length := by
            rw [show APOS.length = 8 from by decide]
            omega
          conv_lhs => rw [hgsplit]
          rw [sub463F_copy APOS '>' (by decide) (g - 8) pe (expandE u2)
            close_s_not_in_apos]
          have hmE : mPref chEq CLOSE_S (Echar :: u2) = false := by
            rw [show CLOSE_S =
              '<' :: '<' :: 'C' :: 'L' :: 'O' :: 'S' :: 'E' :: '_' :: 'S' :: '>' :: '>' :: []
              from by decide]
            simp [mPref, chEq, show ('<' == Echar) = false from by decide]
          simp only [sub463F]
          rw [if_neg (by simp [hmE])]
          rw [expandE_cons_e]
          congr 1
          apply ih u2 f (g - 8) (some Echar) (some '>')
          · omega
          · omega
          · omega
          · decide
        · rw [expandE_cons_ne hc]
          cases g with
          | zero =>
            rw [expandE_cons_ne hc] at hg
            simp at hg
          | succ g =>
            rw [expandE_cons_ne hc] at hg
            simp only [List.length_cons] at hg
            simp only [sub463F]
            by_cases hm : mPref chEq CLOSE_S (c :: u2) = true
            · have hmE : mPref chEq CLOSE_S (c :: expandE u2) = true := by
                have h2 := mPref_expand chEq CLOSE_S (c :: u2) (by decide) hm
                rwa [expandE_cons_ne hc] at h2
              have hdt := drop_take_expandE chEq CLOSE_S (c :: u2) (by decide) hm
              have hdrop : List.drop CLOSE_S.length (c :: expandE u2) =
                  expandE (List.drop CLOSE_S.length (c :: u2)) := by
                have h2 := hdt.1
                rwa [expandE_cons_ne hc] at h2
              have hhead : headWord (List.drop CLOSE_S.length (c :: expandE u2)) =
                  headWord (List.drop CLOSE_S.length (c :: u2)) := by
                rw [hdrop, headWord_expandE]
              have hcond : (optWord pe && mPref chEq CLOSE_S (c :: expandE u2) &&
                  headWord (List.drop CLOSE_S.length (c :: expandE u2))) =
                  (optWord p && mPref chEq CLOSE_S (c :: u2) &&
                  headWord (List.drop CLOSE_S.length (c :: u2))) := by
                rw [hmE, hm, hhead, hpe]
              by_cases hfull : (optWord p && mPref chEq CLOSE_S (c :: u2) &&
                  headWord (List.drop CLOSE_S.length (c :: u2))) = true
              · rw [if_pos (by rw [hcond]; exact hfull), if_pos hfull]
                rw [expandE_append, expandE_id (by decide : Echar ∉ APOS)]
                congr 1
                rw [hdrop]
                have hC : CLOSE_S.length = 11 := by decide
                apply ih (List.drop CLOSE_S.length (c :: u2)) f g (some '>') (some '>')
                · rw [List.length_drop]
                  simp only [List.length_cons]
                  omega
                · rw [List.length_drop]
                  simp only [List.length_cons]
                  omega
                · rw [← hdrop, List.length_drop]
                  simp only [List.length_cons]
                  omega
                · rfl
              · rw [if_neg (by rw [hcond]; exact hfull), if_neg hfull]
                rw [expandE_cons_ne hc]
                congr 1
                apply ih u2 f g (some c) (some c)
                · omega
                · omega
                · omega
                · rfl
            · have hmE : mPref chEq CLOSE_S (c :: expandE u2) = false := by
                cases h2 : mPref chEq CLOSE_S (c :: expandE u2) with
                | false => rfl
                | true =>
                  exact absurd
                    (mPref_unexpand_cons chEq CLOSE_S close_s_drop_apos c hc u2 h2) hm
              have hmf : mPref chEq CLOSE_S (c :: u2) = false :=
                Bool.eq_false_iff.mpr hm
              rw [if_neg (by simp [hmE]), if_neg (by simp [hmf])]
              rw [expandE_cons_ne hc]
              congr 1
              apply ih u2 f g (some c) (some c)
              · omega
              · omega
              · omega
              · rfl

theorem la466_false_first (a : Char) (t : List Char) (h : isDigitChar a = false) :
    la466 (a :: t) = false := by
  cases t with
  | nil => rfl
  | cons b t2 =>
    cases t2 with
    | nil => rfl
    | cons c2 rest => simp [la466, h]

theorem la466_false_second (a b : Char) (t : List Char) (h : isDigitChar b = false) :
    la466 (a :: b :: t) = false := by
  cases t with
  | nil => rfl
  | cons c2 rest => simp [la466, h]

theorem la466_false_third (a b c2 : Char) (t : List Char) (h : ¬(c2 = 's')) :
    la466 (a :: b :: c2 :: t) = false := by
  simp [la466, h]

theorem la466_expandE : ∀ v : List Char, la466 (expandE v) = la466 v := by
  intro v
  cases v with
  | nil => rfl
  | cons a v2 =>
    by_cases ha : a = Echar
    · subst ha
      rw [expandE_cons_e, apos_cons]
      simp only [List.cons_append]
      rw [la466_false_first '<' _ (by decide),
        la466_false_first Echar v2 (by decide)]
    · rw [expandE_cons_ne ha]
      by_cases hda : isDigitChar a = false
      · rw [la466_false_first a _ hda, la466_false_first a _ hda]
      · cases v2 with
        | nil => rfl
        | cons b v3 =>
          by_cases hb : b = Echar
          · subst hb
            rw [expandE_cons_e, apos_cons]
            simp only [List.cons_append]
            rw [la466_false_second a '<' _ (by decide),
              la466_false_second a Echar v3 (by decide)]
          · rw [expandE_cons_ne hb]
            by_cases hdb : isDigitChar b = false
            · rw [la466_false_second a b _ hdb, la466_false_second a b _ hdb]
            · cases v3 with
              | nil => rfl
              | cons c2 v4 =>
                by_cases hc2 : c2 = Echar
                · subst hc2
                  rw [expandE_cons_e, apos_cons]
                  simp only [List.cons_append]
                  rw [la466_false_third a b '<' _ (by decide),
                    la466_false_third a b Echar v4 (by decide)]
                · rw [expandE_cons_ne hc2]
                  by_cases hs : c2 = 's'
                  · simp [la466, hs, headWord_expandE]
                  · rw [la466_false_third a b c2 _ hs,
                      la466_false_third a b c2 _ hs]

theorem sub466F_expand :
    ∀ (n : Nat) (u : List Char) (f g : Nat),
      u.length ≤ n → u.length ≤ f → (expandE u).length ≤ g →
      sub466F g (expandE u) = expandE (sub466F f u) := by
  intro n
  induction n with
  | zero =>
    intro u f g hn _ _
    have hu : u = [] := List.eq_nil_of_length_eq_zero (Nat.le_zero.mp hn)
    subst hu
    cases g <;> cases f <;> simp [sub466F, expandE]
  | succ n ih =>
    intro u f g hn hf hg
    cases u with
    | nil => cases g <;> cases f <;> simp [sub466F, expandE]
    | cons c u2 =>
      cases f with
      | zero => simp at hf
      | succ f =>
        simp only [List.length_cons] at hn hf
        by_cases hc : c = Echar
        · subst hc
          rw [expandE_cons_e]
          have hlen : (expandE (Echar :: u2)).length = 8 + (expandE u2).length := by
            rw [expandE_cons_e, List.length_append,
              show APOS.length = 8 from by decide]
          have hg8 : 8 + (expandE u2).length ≤ g := by
            rw [← hlen]
            exact hg
          have hgsplit : g = (g - 8) + APOS.length := by
            rw [show APOS.length = 8 from by decide]
            omega
          conv_lhs => rw [hgsplit]
          rw [sub466F_copy APOS (g - 8) (expandE u2) close_s_not_in_apos]
          have hmE : mPref chEq CLOSE_S (Echar :: u2) = false := by
            rw [show CLOSE_S =
              '<' :: '<' :: 'C' :: 'L' :: 'O' :: 'S' :: 'E' :: '_' :: 'S' :: '>' :: '>' :: []
              from by decide]
            simp [mPref, chEq, show ('<' == Echar) = false from by decide]
          simp only [sub466F]
          rw [if_neg (by simp [hmE])]
          rw [expandE_cons_e]
          congr 1
          apply ih u2 f (g - 8) <;> omega
        · rw [expandE_cons_ne hc]
          cases g with
          | zero =>
            rw [expandE_cons_ne hc] at hg
            simp at hg
          | succ g =>
            rw [expandE_cons_ne hc] at hg
            simp only [List.length_cons] at hg
            simp only [sub466F]
            by_cases hm : mPref chEq CLOSE_S (c :: u2) = true
            · have hmE : mPref chEq CLOSE_S (c :: expandE u2) = true := by
                have h2 := mPref_expand chEq CLOSE_S (c :: u2) (by decide) hm
                rwa [expandE_cons_ne hc] at h2
              have hdt := drop_take_expandE chEq CLOSE_S (c :: u2) (by decide) hm
              have hdrop : List.drop CLOSE_S.length (c :: expandE u2) =
                  expandE (List.drop CLOSE_S.length (c :: u2)) := by
                have h2 := hdt.1
                rwa [expandE_cons_ne hc] at h2
              have hla : la466 (List.drop CLOSE_S.length (c :: expandE u2)) =
                  la466 (List.drop CLOSE_S.length (c :: u2)) := by
                rw [hdrop, la466_expandE]
              have hcond : (mPref chEq CLOSE_S (c :: expandE u2) &&
                  la466 (List.drop CLOSE_S.length (c :: expandE u2))) =
                  (mPref chEq CLOSE_S (c :: u2) &&
                  la466 (List.drop CLOSE_S.length (c :: u2))) := by
                rw [hmE, hm, hla]
              by_cases hfull : (mPref chEq CLOSE_S (c :: u2) &&
                  la466 (List.drop CLOSE_S.length (c :: u2))) = true
              · rw [if_pos (by rw [hcond]; exact hfull), if_pos hfull]
                rw [expandE_append, expandE_id (by decide : Echar ∉ APOS)]
                congr 1
                rw [hdrop]
                have hC : CLOSE_S.length = 11 := by decide
                apply ih (List.drop CLOSE_S.length (c :: u2)) f g
                · rw [List.length_drop]
                  simp only [List.length_cons]
                  omega
                · rw [List.length_drop]
                  simp only [List.length_cons]
                  omega
                · rw [← hdrop, List.length_drop]
                  simp only [List.length_cons]
                  omega
              · rw [if_neg (by rw [hcond]; exact hfull), if_neg hfull]
                rw [expandE_cons_ne hc]
                congr 1
                apply ih u2 f g <;> omega
            · have hmE : mPref chEq CLOSE_S (c :: expandE u2) = false := by
                cases h2 : mPref chEq CLOSE_S (c :: expandE u2) with
                | false => rfl
                | true =>
                  exact absurd
                    (mPref_unexpand_cons chEq CLOSE_S close_s_drop_apos c hc u2 h2) hm
              have hmf : mPref chEq CLOSE_S (c :: u2) = false :=
                Bool.eq_false_iff.mpr hm
              rw [if_neg (by simp [hmE]), if_neg (by simp [hmf])]
              rw [expandE_cons_ne hc]
              congr 1
              apply ih u2 f g <;> omega

theorem elisionSubF_expand (w : List Char)
    (HWA : ∀ j, j < APOS.length → ∀ X,
      mPref ciEq (CLOSE_S ++ w) (List.drop j APOS ++ X) = false)
    (HWB : ∀ j, 0 < j → j < (CLOSE_S ++ w).length →
      mPrefPartial ciEq (List.drop j (CLOSE_S ++ w)) APOS = false)
    (HWE : ∀ a ∈ CLOSE_S ++ w, ciEq a Echar = false) :
    ∀ (n : Nat) (u : List Char) (f g : Nat) (p pe : Option Char),
      u.length ≤ n → u.length ≤ f → (expandE u).length ≤ g →
      optWord p = optWord pe →
      elisionSubF w g pe (expandE u) = expandE (elisionSubF w f p u) := by
  intro n
  induction n with
  | zero =>
    intro u f g p pe hn _ _ _
    have hu : u = [] := List.eq_nil_of_length_eq_zero (Nat.le_zero.mp hn)
    subst hu
    cases g <;> cases f <;> simp [elisionSubF, expandE]
  | succ n ih =>
    intro u f g p pe hn hf hg hpe
    cases u with
    | nil => cases g <;> cases f <;> simp [elisionSubF, expandE]
    | cons c u2 =>
      cases f with
      | zero => simp at hf
      | succ f =>
        simp only [List.length_cons] at hn hf
        have hplen : (CLOSE_S ++ w).length = 11 + w.length := by
          rw [List.length_append, show CLOSE_S.length = 11 from by decide]
        by_cases hc : c = Echar
        · subst hc
          rw [expandE_cons_e]
          have hlen : (expandE (Echar :: u2)).length = 8 + (expandE u2).length := by
            rw [expandE_cons_e, List.length_append,
              show APOS.length = 8 from by decide]
          have hg8 : 8 + (expandE u2).length ≤ g := by
            rw [← hlen]
            exact hg
          have hgsplit : g = (g - 8) + APOS.length := by
            rw [show APOS.length = 8 from by decide]
            omega
          conv_lhs => rw [hgsplit]
          rw [elisionSubF_copy w APOS '>' (by decide) (g - 8) pe (expandE u2) HWA]
          have hmE : mPref ciEq (CLOSE_S ++ w) (Echar :: u2) = false := by
            rw [show CLOSE_S =
              '<' :: '<' :: 'C' :: 'L' :: 'O' :: 'S' :: 'E' :: '_' :: 'S' :: '>' :: '>' :: []
              from by decide]
            simp only [List.cons_append, mPref]
            simp [show ciEq '<' Echar = false from by decide]
          simp only [elisionSubF]
          rw [if_neg (by simp [hmE])]
          rw [expandE_cons_e]
          congr 1
          apply ih u2 f (g - 8) (some Echar) (some '>')
          · omega
          · omega
          · omega
          · decide
        · rw [expandE_cons_ne hc]
          cases g with
          | zero =>
            rw [expandE_cons_ne hc] at hg
            simp at hg
          | succ g =>
            rw [expandE_cons_ne hc] at hg
            simp only [List.length_cons] at hg
            simp only [elisionSubF]
            by_cases hm : mPref ciEq (CLOSE_S ++ w) (c :: u2) = true
            · have hmE : mPref ciEq (CLOSE_S ++ w) (c :: expandE u2) = true := by
                have h2 := mPref_expand ciEq (CLOSE_S ++ w) (c :: u2) HWE hm
                rwa [expandE_cons_ne hc] at h2
              have hdt := drop_take_expandE ciEq (CLOSE_S ++ w) (c :: u2) HWE hm
              have hdrop : List.drop (CLOSE_S ++ w).length (c :: expandE u2) =
                  expandE (List.drop (CLOSE_S ++ w).length (c :: u2)) := by
                have h2 := hdt.1
                rwa [expandE_cons_ne hc] at h2
              have htake : List.take (CLOSE_S ++ w).length (c :: expandE u2) =
                  List.take (CLOSE_S ++ w).length (c :: u2) := by
                have h2 := hdt.2
                rwa [expandE_cons_ne hc] at h2
              have hhead : headWord (List.drop (CLOSE_S ++ w).length (c :: expandE u2)) =
                  headWord (List.drop (CLOSE_S ++ w).length (c :: u2)) := by
                rw [hdrop, headWord_expandE]
              have hcond : (optWord pe && mPref ciEq (CLOSE_S ++ w) (c :: expandE u2) &&
                  !headWord (List.drop (CLOSE_S ++ w).length (c :: expandE u2))) =
                  (optWord p && mPref ciEq (CLOSE_S ++ w) (c :: u2) &&
                  !headWord (List.drop (CLOSE_S ++ w).length (c :: u2))) := by
                rw [hmE, hm, hhead, hpe]
              by_cases hfull : (optWord p && mPref ciEq (CLOSE_S ++ w) (c :: u2) &&
                  !headWord (List.drop (CLOSE_S ++ w).length (c :: u2))) = true
              · rw [if_pos (by rw [hcond]; exact hfull), if_pos hfull]
                rw [expandE_append, expandE_id (show Echar ∉ APOS ++ w by
                  intro hmem
                  rcases List.mem_append.mp hmem with hmem | hmem
                  · exact absurd hmem (by decide)
                  · have := HWE Echar (List.mem_append_right CLOSE_S hmem)
                    simp [ciEq] at this)]
                rw [htake, hdrop]
                congr 1
                apply ih (List.drop (CLOSE_S ++ w).length (c :: u2)) f g
                  (some (List.getLastD (List.take (CLOSE_S ++ w).length (c :: u2)) c))
                  (some (List.getLastD (List.take (CLOSE_S ++ w).length (c :: u2)) c))
                · rw [List.length_drop]
                  simp only [List.length_cons]
                  omega
                · rw [List.length_drop]
                  simp only [List.length_cons]
                  omega
                · rw [← hdrop, List.length_drop]
                  simp only [List.length_cons]
                  omega
                · rfl
              · rw [if_neg (by rw [hcond]; exact hfull), if_neg hfull]
                rw [expandE_cons_ne hc]
                congr 1
                apply ih u2 f g (some c) (some c)
                · omega
                · omega
                · omega
                · rfl
            · have hmE : mPref ciEq (CLOSE_S ++ w) (c :: expandE u2) = false := by
                cases h2 : mPref ciEq (CLOSE_S ++ w) (c :: expandE u2) with
                | false => rfl
                | true =>
                  exact absurd
                    (mPref_unexpand_cons ciEq (CLOSE_S ++ w) HWB c hc u2 h2) hm
              have hmf : mPref ciEq (CLOSE_S ++ w) (c :: u2) = false :=
                Bool.eq_false_iff.mpr hm
              rw [if_neg (by simp [hmE]), if_neg (by simp [hmf])]
              rw [expandE_cons_ne hc]
              congr 1
              apply ih u2 f g (some c) (some c)
              · omega
              · omega
              · omega
              · rfl

theorem pyReplaceF_expand (p r : List Char) (hp : p ≠ []) (hrE : Echar ∉ r)
    (HA : ∀ j, j < APOS.length → ∀ X, mPref chEq p (List.drop j APOS ++ X) = false)
    (HB : ∀ j, 0 < j → j < p.length → mPrefPartial chEq (List.drop j p) APOS = false)
    (HE : ∀ a ∈ p, chEq a Echar = false) :
    ∀ (n : Nat) (u : List Char) (f g : Nat),
      u.length ≤ n → u.length ≤ f → (expandE u).length ≤ g →
      pyReplaceF p r g (expandE u) = expandE (pyReplaceF p r f u) := by
  have hpe : (!p.isEmpty) = true := by
    cases p with
    | nil => exact absurd rfl hp
    | cons a p2 => rfl
  intro n
  induction n with
  | zero =>
    intro u f g hn _ _
    have hu : u = [] := List.eq_nil_of_length_eq_zero (Nat.le_zero.mp hn)
    subst hu
    cases g <;> cases f <;> simp [pyReplaceF, expandE]
  | succ n ih =>
    intro u f g hn hf hg
    cases u with
    | nil => cases g <;> cases f <;> simp [pyReplaceF, expandE]
    | cons c u2 =>
      cases f with
      | zero => simp at hf
      | succ f =>
        simp only [List.length_cons] at hn hf
        by_cases hc : c = Echar
        · subst hc
          rw [expandE_cons_e]
          have hlen : (expandE (Echar :: u2)).length = 8 + (expandE u2).length := by
            rw [expandE_cons_e, List.length_append,
              show APOS.length = 8 from by decide]
          have hg8 : 8 + (expandE u2).length ≤ g := by
            rw [← hlen]
            exact hg
          have hgsplit : g = (g - 8) + APOS.length := by
            rw [show APOS.length = 8 from by decide]
            omega
          conv_lhs => rw [hgsplit]
          rw [pyReplaceF_copy p r APOS (g - 8) (expandE u2) HA]
          have hmE : mPref chEq p (Echar :: u2) = false := by
            cases p with
            | nil => exact absurd rfl hp
            | cons a p2 =>
              have := HE a (List.mem_cons_self a p2)
              simp [mPref, this]
          simp only [pyReplaceF]
          rw [if_neg (by simp [hmE])]
          rw [expandE_cons_e]
          congr 1
          apply ih u2 f (g - 8) <;> omega
        · rw [expandE_cons_ne hc]
          cases g with
          | zero =>
            rw [expandE_cons_ne hc] at hg
            simp at hg
          | succ g =>
            rw [expandE_cons_ne hc] at hg
            simp only [List.length_cons] at hg
            simp only [pyReplaceF]
            by_cases hm : mPref chEq p (c :: u2) = true
            · have hmE : mPref chEq p (c :: expandE u2) = true := by
                have h2 := mPref_expand chEq p (c :: u2)
                  (fun a ha => HE a ha) hm
                rwa [expandE_cons_ne hc] at h2
              have hdt := drop_take_expandE chEq p (c :: u2) (fun a ha => HE a ha) hm
              have hdrop : List.drop p.length (c :: expandE u2) =
                  expandE (List.drop p.length (c :: u2)) := by
                have h2 := hdt.1
                rwa [expandE_cons_ne hc] at h2
              rw [if_pos (by simp [hpe, hmE]), if_pos (by simp [hpe, hm])]
              rw [expandE_append, expandE_id hrE]
              congr 1
              rw [hdrop]
              have hp1 : 0 < p.length := by
                cases p with
                | nil => exact absurd rfl hp
                | cons a p2 => simp
              apply ih (List.drop p.length (c :: u2)) f g
              · rw [List.length_drop]
                simp only [List.length_cons]
                omega
              · rw [List.length_drop]
                simp only [List.length_cons]
                omega
              · rw [← hdrop, List.length_drop]
                simp only [List.length_cons]
                omega
            · have hmE : mPref chEq p (c :: expandE u2) = false := by
                cases h2 : mPref chEq p (c :: expandE u2) with
                | false => rfl
                | true =>
                  exact absurd (mPref_unexpand_cons chEq p HB c hc u2 h2) hm
              have hmf : mPref chEq p (c :: u2) = false :=
                Bool.eq_false_iff.mpr hm
              rw [if_neg (by simp [hmE]), if_neg (by simp [hmf])]
              rw [expandE_cons_ne hc]
              congr 1
              apply ih u2 f g <;> omega

theorem apos_drop_apos :
    ∀ j, 0 < j → j < APOS.length → mPrefPartial chEq (List.drop j APOS) APOS = false := by
  intro j h1 h2
  rw [show APOS.length = 8 from by decide] at h2
  interval_cases j <;> decide

theorem substE_cons (c : Char) (t : List Char) :
    substE (c :: t) = (if c = Echar then rsq else c) :: substE t := rfl

theorem restoreF_expand :
    ∀ (n : Nat) (u : List Char) (f g : Nat),
      u.length ≤ n → u.length ≤ f → (expandE u).length ≤ g →
      pyReplaceF APOS [rsq] g (expandE u) = substE (pyReplaceF APOS [rsq] f u) := by
  intro n
  induction n with
  | zero =>
    intro u f g hn _ _
    have hu : u = [] := List.eq_nil_of_length_eq_zero (Nat.le_zero.mp hn)
    subst hu
    cases g <;> cases f <;> simp [pyReplaceF, expandE, substE]
  | succ n ih =>
    intro u f g hn hf hg
    cases u with
    | nil => cases g <;> cases f <;> simp [pyReplaceF, expandE, substE]
    | cons c u2 =>
      cases f with
      | zero => simp at hf
      | succ f =>
        simp only [List.length_cons] at hn hf
        by_cases hc : c = Echar
        · subst hc
          have hshape : expandE (Echar :: u2) =
              '<' :: (('<' :: 'A' :: 'P' :: 'O' :: 'S' :: '>' :: '>' :: []) ++ expandE u2) := by
            rw [expandE_cons_e, apos_cons]
            rfl
          cases g with
          | zero =>
            rw [hshape] at hg
            simp at hg
          | succ g =>
            rw [hshape]
            simp only [List.cons_append, List.nil_append, pyReplaceF]
            have hx : mPref chEq APOS
                ('<' :: '<' :: 'A' :: 'P' :: 'O' :: 'S' :: '>' :: '>' :: expandE u2) = true :=
              (mPref_chEq_iff APOS _).mpr ⟨expandE u2, by simp [apos_cons]⟩
            rw [if_pos (show (!APOS.isEmpty && mPref chEq APOS
                ('<' :: '<' :: 'A' :: 'P' :: 'O' :: 'S' :: '>' :: '>' :: expandE u2)) = true by
              simp [hx, show (!APOS.isEmpty) = true from by decide])]
            have hdrop8 : List.drop APOS.length
                ('<' :: '<' :: 'A' :: 'P' :: 'O' :: 'S' :: '>' :: '>' :: expandE u2) =
                expandE u2 := by
              rw [show APOS.length = 8 from by decide]
              rfl
            rw [hdrop8]
            have hmE : mPref chEq APOS (Echar :: u2) = false := by
              rw [apos_cons]
              simp [mPref, chEq, show ('<' == Echar) = false from by decide]
            rw [if_neg (by simp [hmE])]
            rw [substE_cons, if_pos rfl]
            show rsq :: pyReplaceF APOS [rsq] g (expandE u2) =
              rsq :: substE (pyReplaceF APOS [rsq] f u2)
            congr 1
            apply ih u2 f g
            · omega
            · omega
            · rw [hshape] at hg
              simp only [List.length_cons, List.length_append] at hg ⊢
              omega
        · rw [expandE_cons_ne hc]
          cases g with
          | zero =>
            rw [expandE_cons_ne hc] at hg
            simp at hg
          | succ g =>
            rw [expandE_cons_ne hc] at hg
            simp only [List.length_cons] at hg
            simp only [pyReplaceF]
            by_cases hm : mPref chEq APOS (c :: u2) = true
            · obtain ⟨w2, hw⟩ := (mPref_chEq_iff APOS (c :: u2)).mp hm
              have heq : c :: expandE u2 = APOS ++ expandE w2 := by
                have h1 : expandE (c :: u2) = expandE (APOS ++ w2) := by rw [hw]
                rw [expandE_cons_ne hc, expandE_append,
                  expandE_id (by decide : Echar ∉ APOS)] at h1
                exact h1
              have hmE : mPref chEq APOS (c :: expandE u2) = true :=
                (mPref_chEq_iff APOS _).mpr ⟨expandE w2, heq⟩
              rw [if_pos (by simp [hmE, show (!APOS.isEmpty) = true from by decide]),
                if_pos (by simp [hm, show (!APOS.isEmpty) = true from by decide])]
              have hd1 : List.drop APOS.length (c :: expandE u2) = expandE w2 := by
                rw [heq, List.drop_left]
              have hd2 : List.drop APOS.length (c :: u2) = w2 := by
                rw [hw, List.drop_left]
              rw [hd1, hd2]
              show rsq :: pyReplaceF APOS [rsq] g (expandE w2) =
                substE ([rsq] ++ pyReplaceF APOS [rsq] f w2)
              rw [show substE ([rsq] ++ pyReplaceF APOS [rsq] f w2) =
                rsq :: substE (pyReplaceF APOS [rsq] f w2) from by
                  simp [substE, show rsq ≠ Echar from by decide]]
              congr 1
              have hlw : w2.length + 8 = u2.length + 1 := by
                have := congrArg List.length hw
                simp only [List.length_cons, List.length_append,
                  show APOS.length = 8 from by decide] at this
                omega
              have hlew : (expandE w2).length ≤ g := by
                have := congrArg List.length heq
                simp only [List.length_cons, List.length_append,
                  show APOS.length = 8 from by decide] at this
                omega
              apply ih w2 f g
              · omega
              · omega
              · exact hlew
            · have hmE : mPref chEq APOS (c :: expandE u2) = false := by
                cases h2 : mPref chEq APOS (c :: expandE u2) with
                | false => rfl
                | true =>
                  exact absurd
                    (mPref_unexpand_cons chEq APOS apos_drop_apos c hc u2 h2) hm
              have hmf : mPref chEq APOS (c :: u2) = false :=
                Bool.eq_false_iff.mpr hm
              rw [if_neg (by simp [hmE]), if_neg (by simp [hmf])]
              rw [substE_cons, if_neg hc]
              congr 1
              apply ih u2 f g <;> omega

theorem splitNl_append_nonl :
    ∀ (B X : List Char) (l : List Char) (ls : List (List Char)),
      (∀ c ∈ B, c ≠ nl) → splitNl X = l :: ls →
      splitNl (B ++ X) = (B ++ l) :: ls := by
  intro B
  induction B with
  | nil => intro X l ls _ h; simpa using h
  | cons b B2 ih =>
    intro X l ls hB h
    have hb : b ≠ nl := hB b (List.mem_cons_self b B2)
    have h2 := ih X l ls (fun c hc => hB c (List.mem_cons_of_mem b hc)) h
    show (match splitNl (B2 ++ X) with
      | [] => [[b]]
      | l2 :: ls2 => if b = nl then [] :: l2 :: ls2 else (b :: l2) :: ls2) =
      ((b :: B2) ++ l) :: ls
    rw [h2]
    simp [hb]

theorem splitNl_expandE : ∀ u : List Char, splitNl (expandE u) = (splitNl u).map expandE := by
  intro u
  induction u with
  | nil => rfl
  | cons c u2 ih =>
    cases hs : splitNl u2 with
    | nil => exact absurd hs (splitNl_ne_nil u2)
    | cons l ls =>
      rw [hs] at ih
      simp only [List.map_cons] at ih
      by_cases hc : c = Echar
      · subst hc
        rw [expandE_cons_e]
        rw [splitNl_append_nonl APOS (expandE u2) (expandE l) (List.map expandE ls)
          (by decide) ih]
        simp only [splitNl]
        rw [hs]
        show (APOS ++ expandE l) :: List.map expandE ls =
          List.map expandE (if Echar = nl then [] :: l :: ls else (Echar :: l) :: ls)
        rw [if_neg (show Echar ≠ nl from by decide)]
        simp [List.map_cons, expandE_cons_e]
      · rw [expandE_cons_ne hc]
        simp only [splitNl]
        rw [ih, hs]
        show (if c = nl then [] :: expandE l :: List.map expandE ls
            else (c :: expandE l) :: List.map expandE ls) =
          List.map expandE (if c = nl then [] :: l :: ls else (c :: l) :: ls)
        by_cases hnl : c = nl
        · rw [if_pos hnl, if_pos hnl]
          simp [expandE]
        · rw [if_neg hnl, if_neg hnl]
          simp [List.map_cons, expandE_cons_ne hc]

theorem smartenAux_expandE :
    ∀ (l : List Char) (st : Bool), smartenAux st (expandE l) = expandE (smartenAux st l) := by
  intro l
  induction l with
  | nil => intro st; rfl
  | cons c l2 ih =>
    intro st
    by_cases hc : c = Echar
    · subst hc
      rw [expandE_cons_e]
      rw [smartenAux_copy APOS (by intro a ha; rw [apos_cons] at ha; fin_cases ha <;> exact ⟨by decide, by decide⟩) st (expandE l2)]
      rw [ih st]
      have h1 : Echar ≠ dq := by decide
      have h2 : Echar ≠ sqC := by decide
      simp only [smartenAux, if_neg h1, if_neg h2]
      rw [expandE_cons_e]
    · rw [expandE_cons_ne hc]
      simp only [smartenAux]
      by_cases hdq : c = dq
      · rw [if_pos hdq, if_pos hdq]
        rw [ih (!st)]
        cases st <;>
          simp [expandE_cons_ne (show rdq ≠ Echar from by decide),
            expandE_cons_ne (show ldq ≠ Echar from by decide)]
      · rw [if_neg hdq, if_neg hdq]
        by_cases hsq : c = sqC
        · rw [if_pos hsq, if_pos hsq]
          rw [ih st]
          simp [expandE_cons_ne (show rsq ≠ Echar from by decide)]
        · rw [if_neg hsq, if_neg hsq]
          rw [ih st, expandE_cons_ne hc]

theorem joinNl_map_expandE :
    ∀ segs : List (List Char), joinNl (segs.map expandE) = expandE (joinNl segs) := by
  intro segs
  induction segs with
  | nil => rfl
  | cons l ls ih =>
    cases ls with
    | nil => rfl
    | cons m ms =>
      show joinNl (expandE l :: expandE m :: List.map expandE ms) =
        expandE (l ++ nl :: joinNl (m :: ms))
      have : joinNl (expandE l :: expandE m :: List.map expandE ms) =
          expandE l ++ nl :: joinNl (expandE m :: List.map expandE ms) := rfl
      rw [this, expandE_append]
      simp only [List.map_cons] at ih
      rw [ih]
      rw [expandE_cons_ne (show nl ≠ Echar from by decide)]

theorem smartenBranch_expandE (t : List Char) :
    smartenBranch (expandE t) = expandE (smartenBranch t) := by
  unfold smartenBranch
  rw [splitNl_expandE, List.map_map]
  have hfun : smarten_line ∘ expandE = expandE ∘ smarten_line := by
    funext l
    exact smartenAux_expandE l true
  rw [hfun, ← List.map_map, joinNl_map_expandE]

theorem specOpensGo_expandE (q : Char) (hq : q ∉ APOS) (hqE : q ≠ Echar) :
    ∀ (u : List Char) (p pe : Option Char), prevOpens p = prevOpens pe →
      specOpensGo q pe (expandE u) = specOpensGo q p u := by
  intro u
  induction u with
  | nil => intro p pe _; rfl
  | cons c u2 ih =>
    intro p pe hw
    by_cases hc : c = Echar
    · subst hc
      rw [expandE_cons_e]
      rw [specOpensGo_copy q APOS '>' (by decide)
        (fun a ha he => hq (he ▸ ha)) pe (expandE u2)]
      rw [ih (some Echar) (some '>') (by decide)]
      simp only [specOpensGo]
      rw [if_neg (by simp [Ne.symm hqE])]
      omega
    · rw [expandE_cons_ne hc]
      simp only [specOpensGo]
      rw [ih (some c) (some c) rfl, hw]

theorem specOpens_expandE (q : Char) (hq : q ∉ APOS) (hqE : q ≠ Echar)
    (u : List Char) : specOpens q (expandE u) = specOpens q u :=
  specOpensGo_expandE q hq hqE u none none rfl

theorem detect_expandE (u : List Char) :
    detect_primary_style (expandE u) = detect_primary_style u := by
  by_cases hu : u = []
  · subst hu; rfl
  · have hne : expandE u ≠ [] := fun h => hu ((expandE_nil_iff u).mp h)
    unfold detect_primary_style
    rw [if_neg hu, if_neg hne]
    have e1 : findOpens lsq (expandE u) = findOpens lsq u := by
      rw [findOpens_eq_specOpens lsq (by decide), findOpens_eq_specOpens lsq (by decide)]
      exact specOpens_expandE lsq (by decide) (by decide) u
    have e2 : findOpens ldq (expandE u) = findOpens ldq u := by
      rw [findOpens_eq_specOpens ldq (by decide), findOpens_eq_specOpens ldq (by decide)]
      exact specOpens_expandE ldq (by decide) (by decide) u
    rw [e1, e2, count_expandE lsq (by decide) (by decide),
      count_expandE rsq (by decide) (by decide),
      count_expandE ldq (by decide) (by decide),
      count_expandE rdq (by decide) (by decide)]

theorem expand_maskAux :
    ∀ (s : List Char) (prev : Option Char), Echar ∉ s →
      expandE (aposSubWith [Echar] prev s) = aposSubWith APOS prev s := by
  intro s
  induction s with
  | nil => intro prev _; rfl
  | cons c rest ih =>
    intro prev h
    have hc : c ≠ Echar := fun he => h (he ▸ List.mem_cons_self c rest)
    have hrest : Echar ∉ rest := fun hm => h (List.mem_cons_of_mem c hm)
    simp only [aposSubWith]
    by_cases hcond : ((c = rsq || c = sqC) && optWord prev && headWord rest) = true
    · rw [if_pos hcond, if_pos hcond]
      show expandE (Echar :: aposSubWith [Echar] (some c) rest) = _
      rw [expandE_cons_e, ih (some c) hrest]
    · rw [if_neg hcond, if_neg hcond, expandE_cons_ne hc, ih (some c) hrest]

theorem prepass_eq_expand_mask (s : List Char) (h : Echar ∉ s) :
    prepass s = expandE (maskE s) :=
  (expand_maskAux s none h).symm

theorem headWord_maskAux (rest : List Char) (prev : Option Char) :
    headWord (aposSubWith [Echar] prev rest) = headWord rest := by
  cases rest with
  | nil => rfl
  | cons d rest2 =>
    simp only [aposSubWith]
    by_cases hcond : ((d = rsq || d = sqC) && optWord prev && headWord rest2) = true
    · rw [if_pos hcond]
      have hd : isWordChar d = false := by
        have h1 : (d = rsq || d = sqC) = true :=
          (Bool.and_eq_true .. |>.mp (Bool.and_eq_true .. |>.mp hcond).1).1
        rcases Bool.or_eq_true .. |>.mp h1 with h2 | h2
        · rw [of_decide_eq_true h2]; decide
        · rw [of_decide_eq_true h2]; decide
      show headWord (Echar :: aposSubWith [Echar] (some d) rest2) = headWord (d :: rest2)
      simp [headWord, hd]
      decide
    · rw [if_neg hcond]
      rfl

theorem prepass_maskE_id :
    ∀ (s : List Char) (pO pM : Option Char), optWord pO = optWord pM →
      aposSubWith APOS pM (aposSubWith [Echar] pO s) = aposSubWith [Echar] pO s := by
  intro s
  induction s with
  | nil => intro pO pM _; rfl
  | cons c rest ih =>
    intro pO pM hw
    simp only [aposSubWith]
    by_cases hcond : ((c = rsq || c = sqC) && optWord pO && headWord rest) = true
    · rw [if_pos hcond]
      have hwc : isWordChar c = false := by
        have h1 : (c = rsq || c = sqC) = true :=
          (Bool.and_eq_true .. |>.mp (Bool.and_eq_true .. |>.mp hcond).1).1
        rcases Bool.or_eq_true .. |>.mp h1 with h2 | h2
        · rw [of_decide_eq_true h2]; decide
        · rw [of_decide_eq_true h2]; decide
      show aposSubWith APOS pM (Echar :: aposSubWith [Echar] (some c) rest) =
        Echar :: aposSubWith [Echar] (some c) rest
      simp only [aposSubWith]
      rw [if_neg (by simp [show (Echar = rsq) = False from by simp [show Echar ≠ rsq from by decide],
        show (Echar = sqC) = False from by simp [show Echar ≠ sqC from by decide]])]
      congr 1
      apply ih (some c) (some Echar)
      show isWordChar c = isWordChar Echar
      rw [hwc]
      decide
    · rw [if_neg hcond]
      show aposSubWith APOS pM (c :: aposSubWith [Echar] (some c) rest) =
        c :: aposSubWith [Echar] (some c) rest
      simp only [aposSubWith]
      have hcond2 : ((c = rsq || c = sqC) && optWord pM &&
          headWord (aposSubWith [Echar] (some c) rest)) = false := by
        rw [headWord_maskAux, ← hw]
        exact Bool.eq_false_iff.mpr hcond
      rw [if_neg (by simp [hcond2])]
      congr 1
      exact ih (some c) (some c) rfl

theorem prepass_maskE (s : List Char) : prepass (maskE s) = maskE s :=
  prepass_maskE_id s none none rfl

theorem maskE_nil_iff (s : List Char) : maskE s = [] ↔ s = [] := by
  cases s with
  | nil => simp [maskE, aposSubWith]
  | cons c rest =>
    constructor
    · intro h
      unfold maskE aposSubWith at h
      by_cases hcond : ((c = rsq || c = sqC) && optWord none && headWord rest) = true
      · rw [if_pos hcond] at h
        simp at h
      · rw [if_neg hcond] at h
        simp at h
    · intro h
      simp at h

theorem mPrefPartial_append (m : Char → Char → Bool) :
    ∀ (p w B : List Char), B.length ≤ p.length →
      mPrefPartial m (p ++ w) B = mPrefPartial m p B := by
  intro p
  induction p with
  | nil =>
    intro w B hB
    have : B = [] := List.eq_nil_of_length_eq_zero (Nat.le_zero.mp hB)
    subst this
    cases w <;> rfl
  | cons a p2 ih =>
    intro w B hB
    cases B with
    | nil => rfl
    | cons b B2 =>
      simp only [List.cons_append, mPrefPartial, List.append_eq]
      rw [ih w B2 (by simp only [List.length_cons] at hB; omega)]

theorem hwa_generic (w : List Char) :
    ∀ j, j < APOS.length → ∀ X,
      mPref ciEq (CLOSE_S ++ w) (List.drop j APOS ++ X) = false := by
  intro j hj X
  apply mPref_false_of_partial
  rw [mPrefPartial_append ciEq CLOSE_S w (List.drop j APOS)
    (by rw [List.length_drop]; rw [show APOS.length = 8 from by decide,
      show CLOSE_S.length = 11 from by decide]; omega)]
  rw [show APOS.length = 8 from by decide] at hj
  interval_cases j <;> decide

theorem mPrefPartial_false_head (m : Char → Char → Bool) (a b : Char)
    (p B : List Char) (h : m a b = false) :
    mPrefPartial m (a :: p) (b :: B) = false := by
  simp [mPrefPartial, h]

theorem hwb_generic (w : List Char) (hw : ∀ a ∈ w, ciEq a '<' = false) :
    ∀ j, 0 < j → j < (CLOSE_S ++ w).length →
      mPrefPartial ciEq (List.drop j (CLOSE_S ++ w)) APOS = false := by
  intro j hj1 hj2
  by_cases hj : j < 11
  · have hdrop : List.drop j (CLOSE_S ++ w) = List.drop j CLOSE_S ++ w := by
      rw [List.drop_append_of_le_length (by rw [show CLOSE_S.length = 11 from by decide]; omega)]
    rw [hdrop]
    interval_cases j
    · rw [show List.drop 1 CLOSE_S =
        '<' :: 'C' :: 'L' :: 'O' :: 'S' :: 'E' :: '_' :: 'S' :: '>' :: '>' :: [] from by decide]
      rw [apos_cons]
      simp only [List.cons_append, mPrefPartial]
      rw [show ciEq 'C' '<' = false from by decide]
      simp
    · rw [show List.drop 2 CLOSE_S =
        'C' :: 'L' :: 'O' :: 'S' :: 'E' :: '_' :: 'S' :: '>' :: '>' :: [] from by decide]
      rw [apos_cons]
      simp only [List.cons_append]
      exact mPrefPartial_false_head ciEq 'C' '<' _ _ (by decide)
    · rw [show List.drop 3 CLOSE_S =
        'L' :: 'O' :: 'S' :: 'E' :: '_' :: 'S' :: '>' :: '>' :: [] from by decide]
      rw [apos_cons]
      simp only [List.cons_append]
      exact mPrefPartial_false_head ciEq 'L' '<' _ _ (by decide)
    · rw [show List.drop 4 CLOSE_S =
        'O' :: 'S' :: 'E' :: '_' :: 'S' :: '>' :: '>' :: [] from by decide]
      rw [apos_cons]
      simp only [List.cons_append]
      exact mPrefPartial_false_head ciEq 'O' '<' _ _ (by decide)
    · rw [show List.drop 5 CLOSE_S =
        'S' :: 'E' :: '_' :: 'S' :: '>' :: '>' :: [] from by decide]
      rw [apos_cons]
      simp only [List.cons_append]
      exact mPrefPartial_false_head ciEq 'S' '<' _ _ (by decide)
    · rw [show List.drop 6 CLOSE_S =
        'E' :: '_' :: 'S' :: '>' :: '>' :: [] from by decide]
      rw [apos_cons]
      simp only [List.cons_append]
      exact mPrefPartial_false_head ciEq 'E' '<' _ _ (by decide)
    · rw [show List.drop 7 CLOSE_S =
        '_' :: 'S' :: '>' :: '>' :: [] from by decide]
      rw [apos_cons]
      simp only [List.cons_append]
      exact mPrefPartial_false_head ciEq '_' '<' _ _ (by decide)
    · rw [show List.drop 8 CLOSE_S = 'S' :: '>' :: '>' :: [] from by decide]
      rw [apos_cons]
      simp only [List.cons_append]
      exact mPrefPartial_false_head ciEq 'S' '<' _ _ (by decide)
    · rw [show List.drop 9 CLOSE_S = '>' :: '>' :: [] from by decide]
      rw [apos_cons]
      simp only [List.cons_append]
      exact mPrefPartial_false_head ciEq '>' '<' _ _ (by decide)
    · rw [show List.drop 10 CLOSE_S = '>' :: [] from by decide]
      rw [apos_cons]
      simp only [List.cons_append]
      exact mPrefPartial_false_head ciEq '>' '<' _ _ (by decide)
  · have h11 : j = CLOSE_S.length + (j - 11) := by
      rw [show CLOSE_S.length = 11 from by decide]
      omega
    have hdrop : List.drop j (CLOSE_S ++ w) = List.drop (j - 11) w := by
      conv_lhs => rw [h11]
      exact List.drop_append (j - 11)
    rw [hdrop]
    have hlt : j - 11 < w.length := by
      rw [List.length_append, show CLOSE_S.length = 11 from by decide] at hj2
      omega
    cases hd : List.drop (j - 11) w with
    | nil =>
      have := List.drop_eq_nil_iff.mp hd
      omega
    | cons a rest =>
      have ha : a ∈ w := List.mem_of_mem_drop (hd ▸ List.mem_cons_self a rest)
      rw [apos_cons]
      exact mPrefPartial_false_head ciEq a '<' _ _ (hw a ha)

theorem hA_concrete (p : List Char)
    (h : ∀ j, j < 8 → mPrefPartial chEq p (List.drop j APOS) = false) :
    ∀ j, j < APOS.length → ∀ X, mPref chEq p (List.drop j APOS ++ X) = false := by
  intro j hj X
  exact mPref_false_of_partial chEq p _ X
    (h j (by rwa [show APOS.length = 8 from by decide] at hj))

theorem hB_concrete (p : List Char)
    (h : ∀ j, j < p.length →
      (j = 0 ∨ mPrefPartial chEq (List.drop j p) APOS = false)) :
    ∀ j, 0 < j → j < p.length →
      mPrefPartial chEq (List.drop j p) APOS = false := by
  intro j h1 h2
  rcases h j h2 with h0 | hf
  · omega
  · exact hf

theorem pyReplace_expandE (p r : List Char) (hp : p ≠ []) (hrE : Echar ∉ r)
    (HA : ∀ j, j < APOS.length → ∀ X, mPref chEq p (List.drop j APOS ++ X) = false)
    (HB : ∀ j, 0 < j → j < p.length → mPrefPartial chEq (List.drop j p) APOS = false)
    (HE : ∀ a ∈ p, chEq a Echar = false)
    (u : List Char) :
    pyReplace (expandE u) p r = expandE (pyReplace u p r) :=
  pyReplaceF_expand p r hp hrE HA HB HE u.length u u.length (expandE u).length
    le_rfl le_rfl le_rfl

theorem sub463_expandE (u : List Char) :
    sub463 (expandE u) = expandE (sub463 u) :=
  sub463F_expand u.length u u.length (expandE u).length none none
    le_rfl le_rfl le_rfl rfl

theorem sub466_expandE (u : List Char) :
    sub466 (expandE u) = expandE (sub466 u) :=
  sub466F_expand u.length u u.length (expandE u).length le_rfl le_rfl le_rfl

theorem elisionSubTop_expandE (w : List Char)
    (hw : ∀ a ∈ w, ciEq a '<' = false)
    (hwe : ∀ a ∈ CLOSE_S ++ w, ciEq a Echar = false)
    (u : List Char) :
    elisionSubTop w (expandE u) = expandE (elisionSubTop w u) :=
  elisionSubF_expand w (hwa_generic w) (hwb_generic w hw) hwe
    u.length u u.length (expandE u).length none none le_rfl le_rfl le_rfl rfl

theorem elisionPass_expandE (u : List Char) :
    elisionPass (expandE u) = expandE (elisionPass u) := by
  simp only [elisionPass, elisionWords, List.foldl]
  rw [elisionSubTop_expandE "em".data (by decide) (by decide),
    elisionSubTop_expandE "cause".data (by decide) (by decide),
    elisionSubTop_expandE "til".data (by decide) (by decide),
    elisionSubTop_expandE "tis".data (by decide) (by decide),
    elisionSubTop_expandE "twas".data (by decide) (by decide),
    elisionSubTop_expandE "sup".data (by decide) (by decide),
    elisionSubTop_expandE "round".data (by decide) (by decide),
    elisionSubTop_expandE "clock".data (by decide) (by decide)]

theorem ukSwapIn_expandE (t : List Char) :
    ukSwapIn (expandE t) = expandE (ukSwapIn t) := by
  unfold ukSwapIn
  rw [pyReplace_expandE [lsq] OPEN_S (by decide) (by decide)
      (hA_concrete [lsq] (by decide)) (by intro j h1 h2; simp at h2; omega) (by decide),
    pyReplace_expandE [rsq] CLOSE_S (by decide) (by decide)
      (hA_concrete [rsq] (by decide)) (by intro j h1 h2; simp at h2; omega) (by decide),
    pyReplace_expandE [ldq] OPEN_D (by decide) (by decide)
      (hA_concrete [ldq] (by decide)) (by intro j h1 h2; simp at h2; omega) (by decide),
    pyReplace_expandE [rdq] CLOSE_D (by decide) (by decide)
      (hA_concrete [rdq] (by decide)) (by intro j h1 h2; simp at h2; omega) (by decide)]

theorem ukSwapOut_expandE (t : List Char) :
    ukSwapOut (expandE t) = expandE (ukSwapOut t) := by
  unfold ukSwapOut
  rw [pyReplace_expandE OPEN_S [ldq] (by decide) (by decide)
      (hA_concrete OPEN_S (by decide)) (hB_concrete OPEN_S (by decide)) (by decide),
    pyReplace_expandE CLOSE_S [rdq] (by decide) (by decide)
      (hA_concrete CLOSE_S (by decide)) (hB_concrete CLOSE_S (by decide)) (by decide),
    pyReplace_expandE OPEN_D [lsq] (by decide) (by decide)
      (hA_concrete OPEN_D (by decide)) (hB_concrete OPEN_D (by decide)) (by decide),
    pyReplace_expandE CLOSE_D [rsq] (by decide) (by decide)
      (hA_concrete CLOSE_D (by decide)) (hB_concrete CLOSE_D (by decide)) (by decide)]

theorem restoreA_expandE (u : List Char) :
    restoreA (expandE u) = substE (restoreA u) :=
  restoreF_expand u.length u u.length (expandE u).length le_rfl le_rfl le_rfl

theorem countCh_smartenAux (x : Char) (h1 : x ≠ dq) (h2 : x ≠ sqC)
    (h3 : x ≠ ldq) (h4 : x ≠ rdq) (h5 : x ≠ rsq) :
    ∀ (b : Bool) (l : List Char), countCh x (smartenAux b l) = countCh x l := by
  intro b l
  induction l generalizing b with
  | nil => rfl
  | cons c rest ih =>
    have ih2 : ∀ b2 : Bool, List.count x (smartenAux b2 rest) = List.count x rest :=
      fun b2 => ih b2
    simp only [smartenAux]
    by_cases hdq : c = dq
    · rw [if_pos hdq]
      cases b <;>
        simp [countCh, List.count_cons, ih2, hdq,
          Ne.symm h1, Ne.symm h3, Ne.symm h4, h1, h3, h4]
    · rw [if_neg hdq]
      by_cases hsq : c = sqC
      · rw [if_pos hsq]
        simp [countCh, List.count_cons, ih2, hsq, Ne.symm h2, Ne.symm h5, h2, h5]
      · rw [if_neg hsq]
        simp only [countCh, List.count_cons] at ih ⊢
        rw [ih]

theorem countCh_joinNl (x : Char) (hx : x ≠ nl) :
    ∀ ls : List (List Char), countCh x (joinNl ls) = (ls.map (countCh x)).sum := by
  intro ls
  induction ls with
  | nil => rfl
  | cons l ls ih =>
    cases ls with
    | nil => simp [joinNl]
    | cons l2 ls2 =>
      show countCh x (l ++ nl :: joinNl (l2 :: ls2)) = _
      rw [countCh_append]
      have hnl : countCh x (nl :: joinNl (l2 :: ls2)) =
          countCh x (joinNl (l2 :: ls2)) := by
        simp [countCh, List.count_cons, Ne.symm hx, hx]
      rw [hnl, ih]
      simp [List.map_cons, List.sum_cons]

theorem countCh_smartenBranch (x : Char)
    (h1 : x ≠ dq) (h2 : x ≠ sqC) (h3 : x ≠ ldq) (h4 : x ≠ rdq) (h5 : x ≠ rsq)
    (hx : x ≠ nl) (t : List Char) :
    countCh x (smartenBranch t) = countCh x t := by
  unfold smartenBranch
  rw [countCh_joinNl x hx, List.map_map]
  have hfun : countCh x ∘ smarten_line = countCh x := by
    funext l
    show countCh x (smartenAux true l) = countCh x l
    exact countCh_smartenAux x h1 h2 h3 h4 h5 true l
  rw [hfun, ← countCh_joinNl x hx, joinNl_splitNl]

/-- C9: word-internal single quotes are classified as apostrophes and
rendered as the right single curly quote, never as a swapped delimiter.
Formally: masking every word-internal quote of the input by an inert
private-use placeholder commutes with the whole normalizer — the real
output is obtained from the masked run by rendering each placeholder as
the apostrophe glyph ’, and the masked run carries every placeholder
through to the output unchanged (in count), so no word-internal quote is
ever consumed, swapped or duplicated by the delimiter machinery; in
particular the straight-quote example normalizes as the spec states:
`normalize("don't") = "don’t"`. -/
theorem C9_word_internal_apostrophes (s : List Char) (hE : Echar ∉ s) :
    normalize_quotes_to_us s = substE (normalize_quotes_to_us (maskE s)) ∧
    countCh Echar (normalize_quotes_to_us (maskE s)) = countCh Echar (maskE s) ∧
    normalize_quotes_to_us ("don".data ++ [sqC] ++ "t".data) = "don’t".data := by
  refine ⟨?_, ?_, by decide⟩
  · by_cases hs : s = []
    · subst hs
      rfl
    · have hm : maskE s ≠ [] := fun h => hs ((maskE_nil_iff s).mp h)
      have hprep : prepass s = expandE (maskE s) := prepass_eq_expand_mask s hE
      have hpm : prepass (maskE s) = maskE s := prepass_maskE s
      unfold normalize_quotes_to_us
      rw [if_neg hs, if_neg hm]
      dsimp only
      rw [hprep, hpm, detect_expandE]
      by_cases hd : detect_primary_style (maskE s) = "UK"
      · rw [if_pos hd, if_pos hd]
        rw [ukSwapIn_expandE, sub463_expandE, elisionPass_expandE, sub466_expandE,
          ukSwapOut_expandE, restoreA_expandE]
      · rw [if_neg hd, if_neg hd]
        rw [smartenBranch_expandE, restoreA_expandE]
  · by_cases hm : maskE s = []
    · rw [hm]
      rfl
    · have hpm : prepass (maskE s) = maskE s := prepass_maskE s
      unfold normalize_quotes_to_us
      rw [if_neg hm]
      dsimp only
      rw [hpm]
      by_cases hd : detect_primary_style (maskE s) = "UK"
      · rw [if_pos hd]
        exact countCh_uk_branch Echar (by decide) (by decide) (by decide) (by decide)
          (by decide) (by decide) (by decide) (by decide) (by decide)
          (by decide) (maskE s)
      · rw [if_neg hd]
        have e1 : countCh Echar (restoreA (smartenBranch (maskE s))) =
            countCh Echar (smartenBranch (maskE s)) :=
          countCh_pyReplace _ APOS [rsq] Echar (by decide) (by decide)
        rw [e1]
        exact countCh_smartenBranch Echar (by decide) (by decide) (by decide)
          (by decide) (by decide) (by decide) (maskE s)

theorem C9_witness :
    Echar ∉ ("don".data ++ [sqC] ++ "t".data) ∧
    normalize_quotes_to_us ("don".data ++ [sqC] ++ "t".data) = "don’t".data :=
  ⟨by decide,
    (C9_word_internal_apostrophes ("don".data ++ [sqC] ++ "t".data) (by decide)).2.2⟩
